import Mathlib

/-!
Verification of the Bfck Brainfuck interpreter/debugger (Go sources).

Shallow embedding of:
* `codeManager/code/code.go` — operators and the analysed `Code` structure,
* `codeManager/codeAnalyser/codeAnalyser.go` — the analyser (current revision,
  the one with `processSimpleOperator` / `reduceLastOperator` / `setJumpIndex` /
  `checkBracketMatch`),
* `memory/memory.go` — the block-chain tape,
* the current `coderunner` revision (the one with `watchAddress`, stop points
  and until mode) — `executeOperator`, `Continue`, `Step`, `Run`, `Reset`,
  `isWatchHit`, `AddBreakPoint`.

Go slices are modelled as Lean lists; the parallel arrays `Operators`/`Auxiliary`
are modelled as one list of pairs (`Instr`); `uint64` counters are `Nat`; Go
`int` values that can go negative (`columnIndex`, tape indices, `codeIndex`,
`stopIndex`, `LineBegins` entries) are `Int`; byte cells are `Nat` kept below
256 by explicit `% 256`.  Stacks implemented in Go by `append`/`[:len-1]` are
modelled with the top at the head of the list.  `fmt` output that carries no
state (warnings, prints) is dropped; stdin/stdout of the runner are explicit
`List Nat` streams in the state.  Column indices count characters (runes).
-/

namespace Bfck

/-- The eight operators plus the internal `Invalid` marker (code.go). -/
inductive Operator where
  | opAdd
  | opSub
  | opMoveLeft
  | opMoveRight
  | opLeftBracket
  | opRightBracket
  | opInput
  | opOutput
  | invalid
deriving DecidableEq, Repr

instance : Inhabited Operator := ⟨Operator.invalid⟩

/-- `code.ToOperator` (code.go): classify a character. -/
def toOperator (c : Char) : Operator :=
  if c = '+' then .opAdd
  else if c = '-' then .opSub
  else if c = '<' then .opMoveLeft
  else if c = '>' then .opMoveRight
  else if c = '[' then .opLeftBracket
  else if c = ']' then .opRightBracket
  else if c = '.' then .opOutput
  else if c = ',' then .opInput
  else .invalid

/-- `Operator.Reverse` (code.go): the opposite operator. -/
def Operator.reverse : Operator → Operator
  | .opAdd => .opSub
  | .opSub => .opAdd
  | .opMoveLeft => .opMoveRight
  | .opMoveRight => .opMoveLeft
  | _ => .invalid

/-- One analysed instruction: an entry of the parallel arrays
`Code.Operators` / `Code.Auxiliary` (code.go). -/
structure Instr where
  op : Operator
  aux : Nat
deriving DecidableEq, Repr

instance : Inhabited Instr := ⟨⟨.invalid, 0⟩⟩

/-- The analysed program, `code.Code` (code.go).  `instrs` holds the
`Operators` and `Auxiliary` arrays zipped together. -/
structure Code where
  instrs : List Instr
  codeCount : Nat
  lineCount : Nat
  lineBegins : List Int
deriving DecidableEq, Repr

/-- `code.New` (code.go).  `LineBegins` starts empty either way. -/
def Code.new (_debugFlag : Bool) : Code := ⟨[], 0, 0, []⟩

/-- Analysis errors: `Error: Code is empty`, `bracketNotCloseError` (which
carries the 1-based line, 0-based column and the offending line text), and the
`panic` at the end of `checkBracketMatch` (unreachable). -/
inductive AnalyseError where
  | emptyCode
  | bracketNotClose (line : Nat) (col : Int) (text : List Char)
  | panicUnclosedNotFound
deriving DecidableEq, Repr

/-- The `analyser` struct (codeAnalyser.go).  The bracket stack has its top at
the head of the list. -/
structure Analyser where
  debugFlag : Bool
  lineCount : Nat
  columnIndex : Int
  currentLine : List Char
  lineIsEmpty : Bool
  lastOperator : Operator
  bracketIndexStack : List Nat
deriving DecidableEq, Repr

/-- `pushOperator` (codeAnalyser.go): append an operator with auxiliary 1. -/
def pushOperator (result : Code) (op : Operator) : Code :=
  { result with instrs := result.instrs ++ [⟨op, 1⟩] }

/-- `result.Auxiliary[len-1] = f(...)` on the last instruction. -/
def updLastAux (f : Nat → Nat) : List Instr → List Instr
  | [] => []
  | [x] => [⟨x.op, f x.aux⟩]
  | x :: y :: xs => x :: updLastAux f (y :: xs)

/-- `result.Auxiliary[i] = v`: overwrite the auxiliary at position `i`. -/
def setAux : List Instr → Nat → Nat → List Instr
  | [], _, _ => []
  | x :: xs, 0, v => ⟨x.op, v⟩ :: xs
  | x :: xs, n + 1, v => x :: setAux xs n v

/-- `reduceLastOperator` (codeAnalyser.go): decrement the last auxiliary and
remove the instruction when it reaches 0, restoring `lineIsEmpty` and
`lastOperator` as the source does.  (The Go code indexes `Auxiliary[len-1]`
and so panics on an empty list; that branch is unreachable and modelled as a
no-op on the instruction list.) -/
def reduceLastOperator (a : Analyser) (result : Code) : Analyser × Code :=
  let instrs1 := updLastAux (fun n => n - 1) result.instrs
  match instrs1.getLast? with
  | some lastI =>
    if lastI.aux = 0 then
      let instrs2 := instrs1.dropLast
      let lineIsEmpty1 :=
        if a.debugFlag &&
            result.lineBegins.getD (result.lineBegins.length - 1) 0 = (instrs2.length : Int)
        then true else a.lineIsEmpty
      let lastOperator1 :=
        match instrs2.getLast? with
        | none => Operator.invalid
        | some i => i.op
      ({ a with lineIsEmpty := lineIsEmpty1, lastOperator := lastOperator1 },
       { result with instrs := instrs2 })
    else (a, { result with instrs := instrs1 })
  | none => (a, { result with instrs := instrs1 })

/-- `processSimpleOperator` (codeAnalyser.go): merge, cancel or push one of
`+ - < >`. -/
def processSimpleOperator (a : Analyser) (result : Code) (op : Operator) :
    Analyser × Code :=
  let forceNewOperator := a.debugFlag && a.lineIsEmpty
  if ¬forceNewOperator ∧ a.lastOperator = op then
    (a, { result with instrs := updLastAux (fun n => n + 1) result.instrs })
  else if ¬forceNewOperator ∧ a.lastOperator = op.reverse then
    reduceLastOperator a result
  else
    ({ a with lastOperator := op, lineIsEmpty := false }, pushOperator result op)

/-- `setJumpIndex` (codeAnalyser.go): pop the matching `[` index and write both
jump targets (the right bracket was already pushed).  The empty-loop warning is
output only and dropped. -/
def setJumpIndex (a : Analyser) (result : Code) :
    Except AnalyseError (Analyser × Code) :=
  match a.bracketIndexStack with
  | [] => .error (.bracketNotClose a.lineCount a.columnIndex a.currentLine)
  | leftBracketIndex :: rest =>
    let n := result.instrs.length
    let instrs1 := setAux result.instrs (n - 1) (leftBracketIndex + 1)
    let instrs2 := setAux instrs1 leftBracketIndex n
    .ok ({ a with bracketIndexStack := rest }, { result with instrs := instrs2 })

/-- `analyseChar` (codeAnalyser.go): dispatch on the operator class. -/
def analyseChar (a : Analyser) (result : Code) (c : Char) :
    Except AnalyseError (Analyser × Code) :=
  match toOperator c with
  | .opAdd => .ok (processSimpleOperator a result .opAdd)
  | .opSub => .ok (processSimpleOperator a result .opSub)
  | .opMoveLeft => .ok (processSimpleOperator a result .opMoveLeft)
  | .opMoveRight => .ok (processSimpleOperator a result .opMoveRight)
  | .opInput =>
    .ok ({ a with lastOperator := .opInput, lineIsEmpty := false },
         pushOperator result .opInput)
  | .opOutput =>
    .ok ({ a with lastOperator := .opOutput, lineIsEmpty := false },
         pushOperator result .opOutput)
  | .opLeftBracket =>
    .ok ({ a with
            bracketIndexStack := result.instrs.length :: a.bracketIndexStack,
            lastOperator := .opLeftBracket,
            lineIsEmpty := false },
         pushOperator result .opLeftBracket)
  | .opRightBracket => do
    let result := pushOperator result .opRightBracket
    let (a, result) ← setJumpIndex a result
    .ok ({ a with lastOperator := .opRightBracket, lineIsEmpty := false }, result)
  | .invalid => .ok (a, result)

/-- The inner character loop of `Analyse`: `columnIndex++` then `analyseChar`. -/
def analyseChars : Analyser → Code → List Char → Except AnalyseError (Analyser × Code)
  | a, result, [] => .ok (a, result)
  | a, result, c :: cs => do
    let a := { a with columnIndex := a.columnIndex + 1 }
    let (a, result) ← analyseChar a result c
    analyseChars a result cs

/-- The per-line state reset at the top of the line loop of `Analyse`. -/
def lineInit (a : Analyser) (line : List Char) : Analyser :=
  { a with
      currentLine := line,
      lineCount := a.lineCount + 1,
      lineIsEmpty := true,
      columnIndex := -1 }

/-- The line loop of `Analyse`: record the line begin (debug mode), reset the
per-line state, then scan the line's characters. -/
def analyseLines : Analyser → Code → List (List Char) → Except AnalyseError (Analyser × Code)
  | a, result, [] => .ok (a, result)
  | a, result, line :: rest => do
    let result :=
      if a.debugFlag then
        { result with lineBegins := result.lineBegins ++ [(result.instrs.length : Int)] }
      else result
    let (a, result) ← analyseChars (lineInit a line) result line
    analyseLines a result rest

/-- `strings.Lines`: split off one newline-terminated line (terminator kept). -/
def breakLine : List Char → List Char × List Char
  | [] => ([], [])
  | c :: rest =>
    if c = '\n' then ([c], rest)
    else
      let (l, r) := breakLine rest
      (c :: l, r)

theorem breakLine_append (cs : List Char) :
    (breakLine cs).1 ++ (breakLine cs).2 = cs := by
  induction cs with
  | nil => rfl
  | cons c rest ih =>
    simp only [breakLine]
    split
    · simp
    · simpa using ih

theorem breakLine_snd_length (c : Char) (rest : List Char) :
    (breakLine (c :: rest)).2.length < (c :: rest).length := by
  have h := breakLine_append (c :: rest)
  have : (breakLine (c :: rest)).1.length + (breakLine (c :: rest)).2.length
      = (c :: rest).length := by
    rw [← List.length_append, h]
  have h1 : (breakLine (c :: rest)).1.length ≥ 1 := by
    simp only [breakLine]
    split
    · simp
    · simp
  omega

/-- `strings.Lines` (as used by `Analyse`): the newline-terminated lines of the
text; the final line may lack a terminator; empty input yields no lines. -/
def splitLines : List Char → List (List Char)
  | [] => []
  | c :: rest =>
    (breakLine (c :: rest)).1 :: splitLines (breakLine (c :: rest)).2
termination_by cs => cs.length
decreasing_by
  exact breakLine_snd_length c rest

/-- `adjustLineBegins` (codeAnalyser.go), working on the reversed list: set
trailing out-of-range line begins to `-1`, stopping at the first valid one. -/
def adjustLB (len : Nat) : List Int → List Int
  | [] => []
  | x :: xs => if x ≥ (len : Int) then (-1) :: adjustLB len xs else x :: xs

/-- `adjustLineBegins` (codeAnalyser.go). -/
def adjustLineBegins (result : Code) : Code :=
  { result with
      lineBegins := (adjustLB result.instrs.length result.lineBegins.reverse).reverse }

/-- The inner loop of `checkBracketMatch`: scan one line for `[`, decrementing
the countdown; report the column where it reaches zero. -/
def countdownLine : List Char → Int → Nat → Option Int × Nat
  | [], _, k => (none, k)
  | c :: cs, col, k =>
    if c = '[' then
      if k ≤ 1 then (some col, 0)
      else countdownLine cs (col + 1) (k - 1)
    else countdownLine cs (col + 1) k

/-- The rescan of `checkBracketMatch`: find the line/column of the
(countdown)-th open bracket, tracking the 1-based line number. -/
def findUnclosedInLines : List (List Char) → Nat → Nat → Option (Nat × Int × List Char)
  | [], _, _ => none
  | l :: ls, lineNo, k =>
    match countdownLine l 0 k with
    | (some col, _) => some (lineNo + 1, col, l)
    | (none, k1) => findUnclosedInLines ls (lineNo + 1) k1

/-- `checkBracketMatch` (codeAnalyser.go): with a non-empty bracket stack,
rescan the source for the (stack size)-th `[` and report it; the Go `panic`
when it cannot be found is the third error kind. -/
def checkBracketMatch (a : Analyser) (text : List Char) : Option AnalyseError :=
  if a.bracketIndexStack = [] then none
  else
    match findUnclosedInLines (splitLines text) 0 a.bracketIndexStack.length with
    | some (line, col, lineText) => some (.bracketNotClose line col lineText)
    | none => some .panicUnclosedNotFound

/-- The initial `analyser` value built in `Analyse` (Go zero values for the
unlisted fields). -/
def initialAnalyser (debugFlag : Bool) : Analyser :=
  ⟨debugFlag, 0, 0, [], true, .invalid, []⟩

/-- `Analyse` (codeAnalyser.go): empty-input check, line scan, final counts,
line-begin adjustment, bracket check, empty-result check. -/
def analyse (text : List Char) (debugFlag : Bool) : Except AnalyseError Code :=
  if text.length = 0 then .error .emptyCode
  else
    match analyseLines (initialAnalyser debugFlag) (Code.new debugFlag) (splitLines text) with
    | .error e => .error e
    | .ok (a, result) =>
      let result := { result with lineCount := a.lineCount, codeCount := result.instrs.length }
      let result := if debugFlag then adjustLineBegins result else result
      match checkBracketMatch a text with
      | some e => .error e
      | none =>
        if result.instrs.length = 0 then .error .emptyCode else .ok result

/-! ### Tape memory (memory/memory.go)

The doubly linked block chain is modelled as a zipper: the blocks strictly to
the left of the current one (nearest first), the current block's cells, the
in-block pointer, and the blocks strictly to the right (nearest first).  Only
the current block's `ptr` field is ever read by the Go code after `MovePtr`
returns, so a single pointer suffices.  Cells are `Nat` values kept below 256.
-/

/-- `MemoryBlockSize` (memory.go). -/
def memoryBlockSize : Nat := 1024

abbrev Block := List Nat

/-- The `Memory` block chain as a zipper around the current block. -/
structure Mem where
  prev : List Block
  cells : Block
  ptr : Int
  next : List Block
deriving DecidableEq, Repr

/-- `memory.New` (memory.go): one zero block, pointer at the midpoint. -/
def Mem.new : Mem :=
  ⟨[], List.replicate memoryBlockSize 0, (memoryBlockSize : Int) / 2, []⟩

/-- The first loop of `Peek`: walk left while the index is negative; a missing
block yields 0. -/
def peekPrev : List Block → Int → Nat
  | [], _ => 0
  | b :: bs, index =>
    let i := index + (memoryBlockSize : Int)
    if i < 0 then peekPrev bs i else b.getD i.toNat 0

/-- The second loop of `Peek`: walk right while the index is at least the block
size; a missing block yields 0. -/
def peekNext : List Block → Int → Nat
  | [], _ => 0
  | b :: bs, index =>
    let i := index - (memoryBlockSize : Int)
    if i ≥ (memoryBlockSize : Int) then peekNext bs i else b.getD i.toNat 0

/-- `Memory.Peek` (memory.go). -/
def Mem.peek (m : Mem) (offset : Int) : Nat :=
  let index := m.ptr + offset
  if index < 0 then peekPrev m.prev index
  else if index ≥ (memoryBlockSize : Int) then peekNext m.next index
  else m.cells.getD index.toNat 0

/-- `Memory.Poke` (memory.go): `cells[ptr] = byte(value)`. -/
def Mem.poke (m : Mem) (value : Nat) : Mem :=
  { m with cells := m.cells.set m.ptr.toNat (value % 256) }

/-- `Memory.Add` (memory.go): `cells[ptr] += byte(value)` with byte wrap. -/
def Mem.add (m : Mem) (value : Nat) : Mem :=
  { m with cells := m.cells.set m.ptr.toNat ((m.cells.getD m.ptr.toNat 0 + value) % 256) }

/-- `Memory.Sub` (memory.go): `cells[ptr] -= byte(value)` with byte wrap. -/
def Mem.sub (m : Mem) (value : Nat) : Mem :=
  { m with cells :=
      (m.cells.set m.ptr.toNat
        ((m.cells.getD m.ptr.toNat 0 + (256 - value % 256)) % 256)) }

/-- The first loop of `MovePtr`: while the pointer is negative, step into the
previous block, allocating a fresh zero block when the chain ends. -/
def walkLeft (m : Mem) : Mem :=
  if m.ptr < 0 then
    match m.prev with
    | [] =>
      walkLeft ⟨[], List.replicate memoryBlockSize 0,
                m.ptr + (memoryBlockSize : Int), m.cells :: m.next⟩
    | b :: bs =>
      walkLeft ⟨bs, b, m.ptr + (memoryBlockSize : Int), m.cells :: m.next⟩
  else m
termination_by (-m.ptr).toNat
decreasing_by
  · have h1024 : memoryBlockSize = 1024 := rfl
    omega
  · have h1024 : memoryBlockSize = 1024 := rfl
    omega

/-- The second loop of `MovePtr`: while the pointer is at least the block size,
step into the next block, allocating a fresh zero block when the chain ends. -/
def walkRight (m : Mem) : Mem :=
  if m.ptr ≥ (memoryBlockSize : Int) then
    match m.next with
    | [] =>
      walkRight ⟨m.cells :: m.prev, List.replicate memoryBlockSize 0,
                 m.ptr - (memoryBlockSize : Int), []⟩
    | b :: bs =>
      walkRight ⟨m.cells :: m.prev, b, m.ptr - (memoryBlockSize : Int), bs⟩
  else m
termination_by m.ptr.toNat
decreasing_by
  · have h1024 : memoryBlockSize = 1024 := rfl
    omega
  · have h1024 : memoryBlockSize = 1024 := rfl
    omega

/-- `Memory.MovePtr` (memory.go): shift the pointer, then normalise it into
the block range by walking left and right. -/
def Mem.movePtr (m : Mem) (offset : Int) : Mem :=
  walkRight (walkLeft { m with ptr := m.ptr + offset })

/-- `Memory.PeekBytes` (memory.go). -/
def Mem.peekBytes (m : Mem) (offset : Int) (length : Nat) : List Nat :=
  (List.range length).map fun i => m.peek (offset + i)

/-! ### The code runner (current `coderunner` revision)

The revision with the sorted `watchAddress` list, the one-shot stop point and
until mode — the one whose `executeOperator` checks the stop point first and
whose `isWatchHit` caches the address lookup in `watchChecked`/`watchHit` and
alternates `watchUsed`.  Stdin/stdout are explicit `List Nat` streams. -/

/-- `ReturnCode` (current coderunner revision). -/
inductive ReturnCode where
  | returnAfterFinish
  | returnAfterStep
  | returnReachBreakPoint
  | returnReachWatch
  | returnReachUntil
  | returnReachStop
  | returnAfterExecuteOperator
deriving DecidableEq, Repr

/-- The `CodeRunner` struct, plus explicit input/output streams. -/
structure CodeRunner where
  code : Code
  codeIndex : Int
  memory : Mem
  memoryPointer : Int
  debugFlag : Bool
  breakPoint : List Nat
  codeBreakPointed : List Bool
  breakPointUsed : Bool
  watchAddress : List Int
  watchUsed : Bool
  watchChecked : Bool
  watchHit : Bool
  untilStatus : Bool
  stopEnabled : Bool
  stopIndex : Int
  untilEnabled : Bool
  input : List Nat
  output : List Nat
deriving DecidableEq, Repr

/-- `coderunner.New`: debug mode allocates the breakpoint structures, non-debug
mode leaves them nil; all other fields are Go zero values. -/
def CodeRunner.new (code : Code) (debugFlag : Bool) : CodeRunner :=
  if debugFlag then
    { code := code, codeIndex := 0, memory := Mem.new, memoryPointer := 0,
      debugFlag := true, breakPoint := [],
      codeBreakPointed := List.replicate code.codeCount false,
      breakPointUsed := false, watchAddress := [], watchUsed := false,
      watchChecked := false, watchHit := false, untilStatus := false,
      stopEnabled := false, stopIndex := 0, untilEnabled := false,
      input := [], output := [] }
  else
    { code := code, codeIndex := 0, memory := Mem.new, memoryPointer := 0,
      debugFlag := false, breakPoint := [], codeBreakPointed := [],
      breakPointUsed := false, watchAddress := [], watchUsed := false,
      watchChecked := false, watchHit := false, untilStatus := false,
      stopEnabled := false, stopIndex := 0, untilEnabled := false,
      input := [], output := [] }

/-- `isWatchHit` (codeReader.go:787-809): look the pointer up in the watch list
only once per dwell (cached in `watchChecked`/`watchHit`), then alternate the
`watchUsed` toggle while `watchHit` holds.  (Callers guard `debugFlag`.) -/
def isWatchHit (cr : CodeRunner) : Bool × CodeRunner :=
  let cr :=
    if !cr.watchChecked then
      { cr with
          watchChecked := true,
          watchHit := cr.watchHit || cr.watchAddress.contains cr.memoryPointer }
    else cr
  if cr.watchHit then (!cr.watchUsed, { cr with watchUsed := !cr.watchUsed })
  else (false, cr)

/-- `Reset` (codeReader.go:774-784): fresh tape, cursor at 0, clear
`breakPointUsed`, `watchUsed` and `untilEnabled` — nothing else. -/
def reset (cr : CodeRunner) : CodeRunner :=
  { cr with
      codeIndex := 0,
      memory := Mem.new,
      memoryPointer := 0,
      breakPointUsed := false,
      watchUsed := false,
      untilEnabled := false }

/-- `executeOperator` (codeReader.go:689-771): stop-point check, fetch,
advance, dispatch; watch checks guard `Add`/`Sub`/`Input` and suspend before
mutating; `returnAfterFinish` when the cursor leaves the program. -/
def executeOperator (cr : CodeRunner) : ReturnCode × CodeRunner :=
  if cr.debugFlag && cr.stopEnabled && cr.codeIndex = cr.stopIndex then
    (.returnReachStop, { cr with stopEnabled := false })
  else
    let instr := cr.code.instrs.getD cr.codeIndex.toNat default
    let auxiliary := instr.aux
    let cr := { cr with codeIndex := cr.codeIndex + 1 }
    let (early, cr) :=
      match instr.op with
      | .opAdd =>
        if cr.debugFlag then
          match isWatchHit cr with
          | (true, cr1) => (some ReturnCode.returnReachWatch,
                            { cr1 with codeIndex := cr1.codeIndex - 1 })
          | (false, cr1) =>
            (none, { cr1 with memory := cr1.memory.add auxiliary, watchUsed := false })
        else (none, { cr with memory := cr.memory.add auxiliary, watchUsed := false })
      | .opSub =>
        if cr.debugFlag then
          match isWatchHit cr with
          | (true, cr1) => (some ReturnCode.returnReachWatch,
                            { cr1 with codeIndex := cr1.codeIndex - 1 })
          | (false, cr1) =>
            (none, { cr1 with memory := cr1.memory.sub auxiliary, watchUsed := false })
        else (none, { cr with memory := cr.memory.sub auxiliary, watchUsed := false })
      | .opMoveLeft =>
        (none, { cr with
                  memory := cr.memory.movePtr (-(auxiliary : Int)),
                  memoryPointer := cr.memoryPointer - (auxiliary : Int),
                  watchChecked := false })
      | .opMoveRight =>
        (none, { cr with
                  memory := cr.memory.movePtr (auxiliary : Int),
                  memoryPointer := cr.memoryPointer + (auxiliary : Int),
                  watchChecked := false })
      | .opLeftBracket =>
        if cr.memory.peek 0 = 0 then (none, { cr with codeIndex := (auxiliary : Int) })
        else (none, cr)
      | .opRightBracket =>
        if cr.memory.peek 0 ≠ 0 then (none, { cr with codeIndex := (auxiliary : Int) })
        else if cr.untilEnabled then
          (some ReturnCode.returnReachUntil, { cr with untilEnabled := false })
        else (none, cr)
      | .opInput =>
        if cr.debugFlag then
          match isWatchHit cr with
          | (true, cr1) => (some ReturnCode.returnReachWatch,
                            { cr1 with codeIndex := cr1.codeIndex - 1 })
          | (false, cr1) =>
            (none, { cr1 with
                      memory := cr1.memory.poke (cr1.input.headD 0),
                      input := cr1.input.tail,
                      watchUsed := false })
        else
          (none, { cr with
                    memory := cr.memory.poke (cr.input.headD 0),
                    input := cr.input.tail,
                    watchUsed := false })
      | .opOutput => (none, { cr with output := cr.output ++ [cr.memory.peek 0] })
      | .invalid => (none, cr)
    match early with
    | some ret => (ret, cr)
    | none =>
      if cr.codeIndex ≥ (cr.code.codeCount : Int) then (.returnAfterFinish, cr)
      else (.returnAfterExecuteOperator, cr)

/-- `Continue` (codeReader.go:652-668): loop — skip-once breakpoint logic then
`executeOperator` — until a return code other than
`returnAfterExecuteOperator`; fuelled to stay total. -/
def continueRun : Nat → CodeRunner → Option (ReturnCode × CodeRunner)
  | 0, _ => none
  | fuel + 1, cr0 =>
    if ¬cr0.breakPointUsed ∧
        (cr0.debugFlag && cr0.codeBreakPointed.getD cr0.codeIndex.toNat false) then
      some (.returnReachBreakPoint, { cr0 with breakPointUsed := true })
    else
      match executeOperator { cr0 with breakPointUsed := false } with
      | (.returnAfterExecuteOperator, cr1) => continueRun fuel cr1
      | (ret, cr1) => some (ret, cr1)

/-- `Step` (codeReader.go:671-686): reset when already finished, execute one
operator, rename `returnAfterExecuteOperator` to `returnAfterStep`. -/
def step (cr : CodeRunner) : ReturnCode × CodeRunner :=
  let cr := if cr.codeIndex ≥ (cr.code.codeCount : Int) then reset cr else cr
  let (ret, cr) := executeOperator cr
  (if ret = .returnAfterExecuteOperator then .returnAfterStep else ret, cr)

/-- `Run` (codeReader.go:645-649): `Reset` then `Continue`. -/
def run (fuel : Nat) (cr : CodeRunner) : Option (ReturnCode × CodeRunner) :=
  continueRun fuel (reset cr)

/-- The outcome kinds of `AddBreakPoint` (its `message` strings, plus the
non-debug panic). -/
inductive BreakPointMessage where
  | panicNotDebug
  | outOfRange
  | inert
  | added
  | alreadyExists
deriving DecidableEq, Repr

/-- `AddBreakPoint` (codeReader.go:422-452).  `slices.BinarySearch` on the
sorted list is modelled by membership and the count of smaller entries; on a
line whose `LineBegins` entry is `-1` only the warning is produced and the
runner is unchanged. -/
def addBreakPoint (cr : CodeRunner) (line : Nat) : BreakPointMessage × CodeRunner :=
  if ¬cr.debugFlag then (.panicNotDebug, cr)
  else if line = 0 ∨ line > cr.code.lineCount then (.outOfRange, cr)
  else if ¬cr.breakPoint.contains line then
    if cr.code.lineBegins.getD (line - 1) 0 = -1 then (.inert, cr)
    else
      let position := (cr.breakPoint.takeWhile (· < line)).length
      (.added,
       { cr with
          codeBreakPointed :=
            cr.codeBreakPointed.set (cr.code.lineBegins.getD (line - 1) 0).toNat true,
          breakPoint :=
            cr.breakPoint.take position ++ line :: cr.breakPoint.drop position })
  else (.alreadyExists, cr)

/-! ### Tape lemmas -/

/-- A block whose cells are all zero. -/
def ZeroBlock (b : Block) : Prop := ∀ x ∈ b, x = 0

/-- A chain whose cells are all zero (never written). -/
def ZeroMem (m : Mem) : Prop :=
  (∀ b ∈ m.prev, ZeroBlock b) ∧ ZeroBlock m.cells ∧ ∀ b ∈ m.next, ZeroBlock b

theorem getD_zero {b : Block} (h : ZeroBlock b) (n : Nat) : b.getD n 0 = 0 := by
  rw [List.getD_eq_getElem?_getD]
  cases hg : b[n]? with
  | none => rfl
  | some x => exact h x (List.getElem?_mem hg)

theorem zeroBlock_replicate : ZeroBlock (List.replicate memoryBlockSize 0) := by
  intro x hx
  exact (List.eq_of_mem_replicate hx)

theorem peekPrev_zero {bs : List Block} (h : ∀ b ∈ bs, ZeroBlock b) (i : Int) :
    peekPrev bs i = 0 := by
  induction bs generalizing i with
  | nil => rfl
  | cons b rest ih =>
    rw [peekPrev]
    split
    · exact ih (fun x hx => h x (List.mem_cons_of_mem b hx)) _
    · exact getD_zero (h b (List.mem_cons_self b rest)) _

theorem peekNext_zero {bs : List Block} (h : ∀ b ∈ bs, ZeroBlock b) (i : Int) :
    peekNext bs i = 0 := by
  induction bs generalizing i with
  | nil => rfl
  | cons b rest ih =>
    rw [peekNext]
    split
    · exact ih (fun x hx => h x (List.mem_cons_of_mem b hx)) _
    · exact getD_zero (h b (List.mem_cons_self b rest)) _

/-- Reading a never-written chain yields 0 at every offset. -/
theorem peek_zero {m : Mem} (h : ZeroMem m) (off : Int) : m.peek off = 0 := by
  obtain ⟨hp, hc, hn⟩ := h
  rw [Mem.peek]
  split
  · exact peekPrev_zero hp _
  · split
    · exact peekNext_zero hn _
    · exact getD_zero hc _

theorem zeroMem_new : ZeroMem Mem.new := by
  refine ⟨?_, zeroBlock_replicate, ?_⟩ <;> simp [Mem.new]

theorem walkLeft_zero {m : Mem} (h : ZeroMem m) : ZeroMem (walkLeft m) := by
  induction m using walkLeft.induct with
  | case1 m hlt hm ih =>
    rw [walkLeft, if_pos hlt, hm]
    obtain ⟨hp, hc, hn⟩ := h
    refine ih ⟨by simp, zeroBlock_replicate, ?_⟩
    intro b hb
    rcases List.mem_cons.mp hb with hb | hb
    · exact hb ▸ hc
    · exact hn b hb
  | case2 m hlt b bs hm ih =>
    rw [walkLeft, if_pos hlt, hm]
    obtain ⟨hp, hc, hn⟩ := h
    refine ih ⟨fun x hx => hp x (hm ▸ List.mem_cons_of_mem b hx),
               hp b (hm ▸ List.mem_cons_self b bs), ?_⟩
    intro x hx
    rcases List.mem_cons.mp hx with hx | hx
    · exact hx ▸ hc
    · exact hn x hx
  | case3 m hlt =>
    rwa [walkLeft, if_neg hlt]

theorem walkRight_zero {m : Mem} (h : ZeroMem m) : ZeroMem (walkRight m) := by
  induction m using walkRight.induct with
  | case1 m hlt hm ih =>
    rw [walkRight, if_pos hlt, hm]
    obtain ⟨hp, hc, hn⟩ := h
    refine ih ⟨?_, zeroBlock_replicate, by simp⟩
    intro b hb
    rcases List.mem_cons.mp hb with hb | hb
    · exact hb ▸ hc
    · exact hp b hb
  | case2 m hlt b bs hm ih =>
    rw [walkRight, if_pos hlt, hm]
    obtain ⟨hp, hc, hn⟩ := h
    refine ih ⟨?_, hn b (hm ▸ List.mem_cons_self b bs), ?_⟩
    · intro x hx
      rcases List.mem_cons.mp hx with hx | hx
      · exact hx ▸ hc
      · exact hp x hx
    · exact fun x hx => hn x (hm ▸ List.mem_cons_of_mem b hx)
  | case3 m hlt =>
    rwa [walkRight, if_neg hlt]

/-- Moving the pointer allocates only zero blocks: an unwritten chain stays
unwritten. -/
theorem movePtr_zero {m : Mem} (h : ZeroMem m) (off : Int) : ZeroMem (m.movePtr off) := by
  unfold Mem.movePtr
  apply walkRight_zero
  apply walkLeft_zero
  obtain ⟨hp, hc, hn⟩ := h
  exact ⟨hp, hc, hn⟩

/-- Wellformedness of a chain: pointer inside the current block, all blocks of
size `memoryBlockSize`. -/
def MemWF (m : Mem) : Prop :=
  0 ≤ m.ptr ∧ m.ptr < (memoryBlockSize : Int) ∧
  m.cells.length = memoryBlockSize ∧
  (∀ b ∈ m.prev, b.length = memoryBlockSize) ∧
  (∀ b ∈ m.next, b.length = memoryBlockSize)

/-- Size of every block, without the pointer-range part. -/
def BlocksWF (m : Mem) : Prop :=
  m.cells.length = memoryBlockSize ∧
  (∀ b ∈ m.prev, b.length = memoryBlockSize) ∧
  (∀ b ∈ m.next, b.length = memoryBlockSize)

theorem walkLeft_blocksWF {m : Mem} (h : BlocksWF m) : BlocksWF (walkLeft m) := by
  induction m using walkLeft.induct with
  | case1 m hlt hm ih =>
    rw [walkLeft, if_pos hlt, hm]
    obtain ⟨hc, hp, hn⟩ := h
    refine ih ⟨by simp, by simp, ?_⟩
    intro b hb
    rcases List.mem_cons.mp hb with hb | hb
    · exact hb ▸ hc
    · exact hn b hb
  | case2 m hlt b bs hm ih =>
    rw [walkLeft, if_pos hlt, hm]
    obtain ⟨hc, hp, hn⟩ := h
    refine ih ⟨hp b (hm ▸ List.mem_cons_self b bs),
               fun x hx => hp x (hm ▸ List.mem_cons_of_mem b hx), ?_⟩
    intro x hx
    rcases List.mem_cons.mp hx with hx | hx
    · exact hx ▸ hc
    · exact hn x hx
  | case3 m hlt =>
    rwa [walkLeft, if_neg hlt]

theorem walkRight_blocksWF {m : Mem} (h : BlocksWF m) : BlocksWF (walkRight m) := by
  induction m using walkRight.induct with
  | case1 m hlt hm ih =>
    rw [walkRight, if_pos hlt, hm]
    obtain ⟨hc, hp, hn⟩ := h
    refine ih ⟨by simp, ?_, by simp⟩
    intro b hb
    rcases List.mem_cons.mp hb with hb | hb
    · exact hb ▸ hc
    · exact hp b hb
  | case2 m hlt b bs hm ih =>
    rw [walkRight, if_pos hlt, hm]
    obtain ⟨hc, hp, hn⟩ := h
    refine ih ⟨hn b (hm ▸ List.mem_cons_self b bs), ?_,
               fun x hx => hn x (hm ▸ List.mem_cons_of_mem b hx)⟩
    intro x hx
    rcases List.mem_cons.mp hx with hx | hx
    · exact hx ▸ hc
    · exact hp x hx
  | case3 m hlt =>
    rwa [walkRight, if_neg hlt]

theorem walkLeft_ptr_nonneg (m : Mem) : 0 ≤ (walkLeft m).ptr := by
  induction m using walkLeft.induct with
  | case1 m hlt hm ih => rwa [walkLeft, if_pos hlt, hm]
  | case2 m hlt b bs hm ih => rwa [walkLeft, if_pos hlt, hm]
  | case3 m hlt => rw [walkLeft, if_neg hlt]; omega

theorem walkRight_ptr_lt (m : Mem) : (walkRight m).ptr < (memoryBlockSize : Int) := by
  induction m using walkRight.induct with
  | case1 m hlt hm ih => rwa [walkRight, if_pos hlt, hm]
  | case2 m hlt b bs hm ih => rwa [walkRight, if_pos hlt, hm]
  | case3 m hlt => rw [walkRight, if_neg hlt]; omega

theorem walkRight_ptr_nonneg {m : Mem} (h : 0 ≤ m.ptr) : 0 ≤ (walkRight m).ptr := by
  induction m using walkRight.induct with
  | case1 m hlt hm ih =>
    rw [walkRight, if_pos hlt, hm]
    refine ih ?_
    have h1024 : memoryBlockSize = 1024 := rfl
    simp only at hlt ⊢
    omega
  | case2 m hlt b bs hm ih =>
    rw [walkRight, if_pos hlt, hm]
    refine ih ?_
    have h1024 : memoryBlockSize = 1024 := rfl
    simp only at hlt ⊢
    omega
  | case3 m hlt => rwa [walkRight, if_neg hlt]

/-- `MovePtr` always returns a wellformed chain when given blocks of the right
size — the pointer lands in `[0, memoryBlockSize)` no matter the offset. -/
theorem movePtr_WF {m : Mem} (h : BlocksWF m) (off : Int) : MemWF (m.movePtr off) := by
  unfold Mem.movePtr
  have hL : BlocksWF (walkLeft { m with ptr := m.ptr + off }) :=
    walkLeft_blocksWF ⟨h.1, h.2.1, h.2.2⟩
  have hR := walkRight_blocksWF hL
  exact ⟨walkRight_ptr_nonneg (walkLeft_ptr_nonneg _), walkRight_ptr_lt _,
         hR.1, hR.2.1, hR.2.2⟩

theorem blocksWF_new : BlocksWF Mem.new := by
  refine ⟨by simp [Mem.new], ?_, ?_⟩ <;> simp [Mem.new]

theorem memWF_blocksWF {m : Mem} (h : MemWF m) : BlocksWF m := ⟨h.2.2.1, h.2.2.2.1, h.2.2.2.2⟩

theorem memWF_new : MemWF Mem.new := by
  refine ⟨?_, ?_, blocksWF_new.1, blocksWF_new.2.1, blocksWF_new.2.2⟩ <;>
    norm_num [Mem.new, memoryBlockSize]

theorem foldl_movePtr_WF {m : Mem} (h : MemWF m) (offs : List Int) :
    MemWF (offs.foldl Mem.movePtr m) := by
  induction offs generalizing m with
  | nil => exact h
  | cons o rest ih =>
    exact ih (movePtr_WF (memWF_blocksWF h) o)

/-- C10: after `New` and any sequence of `MovePtr` calls the returned block's
pointer is inside `[0, MemoryBlockSize)`, so the unchecked `cells[ptr]`
accesses of `Poke`, `Add` and `Sub` are in range. -/
theorem claim_C10 (offs : List Int) :
    0 ≤ (offs.foldl Mem.movePtr Mem.new).ptr ∧
    (offs.foldl Mem.movePtr Mem.new).ptr < (memoryBlockSize : Int) ∧
    ((offs.foldl Mem.movePtr Mem.new).ptr).toNat
      < (offs.foldl Mem.movePtr Mem.new).cells.length := by
  have h := foldl_movePtr_WF memWF_new offs
  obtain ⟨h0, h1, h2, -, -⟩ := h
  refine ⟨h0, h1, ?_⟩
  rw [h2]
  have h1024 : memoryBlockSize = 1024 := rfl
  omega

/-- The chain after writing 55 at logical address 0, moving to logical address
2000 (two block crossings) and writing 77 there. -/
theorem mem2000 :
    ((Mem.new.poke 55).movePtr 2000) =
      ⟨[List.replicate memoryBlockSize 0, (List.replicate memoryBlockSize 0).set 512 55],
       List.replicate memoryBlockSize 0, 464, []⟩ := by
  have h1 : (Mem.new.poke 55) =
      ⟨[], (List.replicate memoryBlockSize 0).set 512 55, 512, []⟩ := by
    norm_num [Mem.poke, Mem.new, memoryBlockSize]
    rfl
  rw [Mem.movePtr, h1]
  rw [walkLeft]; norm_num [memoryBlockSize]
  rw [walkRight]; norm_num [memoryBlockSize]
  rw [walkRight]; norm_num [memoryBlockSize]
  rw [walkRight]; norm_num [memoryBlockSize]

/-- The chain of `mem2000` after the write of 77 at the new pointer. -/
theorem mem2000w :
    (((Mem.new.poke 55).movePtr 2000).poke 77) =
      ⟨[List.replicate memoryBlockSize 0, (List.replicate memoryBlockSize 0).set 512 55],
       (List.replicate memoryBlockSize 0).set 464 77, 464, []⟩ := by
  rw [mem2000]
  norm_num [Mem.poke, memoryBlockSize]
  rfl

/-- C7: never-written addresses read 0 (fresh tapes are zero and pointer moves
only allocate zero blocks); a write past the block boundary at logical address
2000 is read back and does not clobber the earlier write at address 0; the
pointer starts logically at address 0 although the block pointer starts at the
block midpoint. -/
theorem claim_C7 :
    (∀ m : Mem, ZeroMem m → ∀ off : Int, m.peek off = 0)
  ∧ ZeroMem Mem.new
  ∧ (∀ (m : Mem) (off : Int), ZeroMem m → ZeroMem (m.movePtr off))
  ∧ ((((Mem.new.poke 55).movePtr 2000).poke 77).peek 0 = 77
      ∧ (((Mem.new.poke 55).movePtr 2000).poke 77).peek (-2000) = 55)
  ∧ (Mem.new.ptr = (memoryBlockSize : Int) / 2
      ∧ ∀ (code : Code) (flag : Bool), (CodeRunner.new code flag).memoryPointer = 0)
  ∧ (∀ cr : CodeRunner, (reset cr).memoryPointer = 0 ∧ (reset cr).memory = Mem.new) := by
  refine ⟨fun m h off => peek_zero h off, zeroMem_new,
          fun m off h => movePtr_zero h off, ⟨?_, ?_⟩, ⟨rfl, ?_⟩, fun cr => ⟨rfl, rfl⟩⟩
  · rw [mem2000w, Mem.peek]
    norm_num [memoryBlockSize]
    simp only [show Int.toNat 464 = 464 from rfl]
    exact List.getElem_set_self _
  · rw [mem2000w, Mem.peek]
    norm_num [memoryBlockSize]
    simp only [peekPrev]
    norm_num [memoryBlockSize]
    simp only [show Int.toNat 512 = 512 from rfl]
    exact List.getElem_set_self _
  · intro code flag
    cases flag <;> rfl

theorem claim_C7_witness : (Mem.new.movePtr 300).peek 2500 = 0 :=
  claim_C7.1 (Mem.new.movePtr 300) (claim_C7.2.2.1 Mem.new 300 claim_C7.2.1) 2500

/-! ### Runner lemmas -/

/-- `isWatchHit` neither reads nor writes the breakpoint marks. -/
theorem isWatchHit_bp (cr : CodeRunner) (l : List Bool) :
    isWatchHit { cr with codeBreakPointed := l } =
      ((isWatchHit cr).1, { (isWatchHit cr).2 with codeBreakPointed := l }) := by
  unfold isWatchHit
  dsimp only
  split_ifs <;> rfl

set_option maxHeartbeats 1000000 in
/-- `executeOperator` neither reads nor writes the breakpoint marks. -/
theorem executeOperator_bp (cr : CodeRunner) (l : List Bool) :
    executeOperator { cr with codeBreakPointed := l } =
      ((executeOperator cr).1, { (executeOperator cr).2 with codeBreakPointed := l }) := by
  obtain ⟨code, ci, mem, mp, df, bp, cbp, bpu, wa, wu, wc, wh, us, se, si, ue, inp, out⟩ := cr
  rcases hop : (code.instrs.getD ci.toNat default).op
  case opAdd =>
    simp only [executeOperator, hop]
    dsimp only
    rw [isWatchHit_bp ⟨code, ci + 1, mem, mp, df, bp, cbp, bpu, wa, wu, wc, wh, us, se, si, ue, inp, out⟩ l]
    rcases hw : isWatchHit ⟨code, ci + 1, mem, mp, df, bp, cbp, bpu, wa, wu, wc, wh, us, se, si, ue, inp, out⟩ with ⟨b, cr1⟩
    cases b <;> dsimp only <;> split_ifs <;> rfl
  case opSub =>
    simp only [executeOperator, hop]
    dsimp only
    rw [isWatchHit_bp ⟨code, ci + 1, mem, mp, df, bp, cbp, bpu, wa, wu, wc, wh, us, se, si, ue, inp, out⟩ l]
    rcases hw : isWatchHit ⟨code, ci + 1, mem, mp, df, bp, cbp, bpu, wa, wu, wc, wh, us, se, si, ue, inp, out⟩ with ⟨b, cr1⟩
    cases b <;> dsimp only <;> split_ifs <;> rfl
  case opInput =>
    simp only [executeOperator, hop]
    dsimp only
    rw [isWatchHit_bp ⟨code, ci + 1, mem, mp, df, bp, cbp, bpu, wa, wu, wc, wh, us, se, si, ue, inp, out⟩ l]
    rcases hw : isWatchHit ⟨code, ci + 1, mem, mp, df, bp, cbp, bpu, wa, wu, wc, wh, us, se, si, ue, inp, out⟩ with ⟨b, cr1⟩
    cases b <;> dsimp only <;> split_ifs <;> rfl
  all_goals
    simp only [executeOperator, hop] <;> dsimp only <;> split_ifs <;> rfl

/-- `Step` neither reads nor writes the breakpoint marks: an armed breakpoint
at the current instruction changes nothing about what `Step` does. -/
theorem step_bp (cr : CodeRunner) (l : List Bool) :
    step { cr with codeBreakPointed := l } =
      ((step cr).1, { (step cr).2 with codeBreakPointed := l }) := by
  unfold step
  dsimp only
  by_cases h : cr.codeIndex ≥ (cr.code.codeCount : Int)
  · simp only [if_pos h]
    rw [show reset { cr with codeBreakPointed := l }
          = { reset cr with codeBreakPointed := l } from rfl]
    rw [executeOperator_bp]
  · simp only [if_neg h]
    rw [executeOperator_bp]

/-- The opcode `Step` is about to execute. -/
def currentOp (cr : CodeRunner) : Operator :=
  (cr.code.instrs.getD cr.codeIndex.toNat default).op

/-- `Step` at an armed stop point suspends without executing, consuming the
stop point. -/
theorem step_stop {cr : CodeRunner} (hdf : cr.debugFlag = true)
    (hse : cr.stopEnabled = true) (hsi : cr.codeIndex = cr.stopIndex)
    (hlt : cr.codeIndex < (cr.code.codeCount : Int)) :
    step cr = (.returnReachStop, { cr with stopEnabled := false }) := by
  have hex : executeOperator cr = (.returnReachStop, { cr with stopEnabled := false }) := by
    unfold executeOperator
    rw [if_pos (by simp [hdf, hse, hsi])]
  unfold step
  dsimp only
  rw [if_neg (by omega : ¬cr.codeIndex ≥ (cr.code.codeCount : Int)), hex]
  rfl

/-- `Step` at an `Add` whose watch is armed (`watchHit` cached, toggle clear)
suspends with the cursor and tape untouched. -/
theorem step_watch {cr : CodeRunner} (hdf : cr.debugFlag = true)
    (hse : cr.stopEnabled = false) (hop : currentOp cr = .opAdd)
    (hwc : cr.watchChecked = true) (hwh : cr.watchHit = true)
    (hwu : cr.watchUsed = false) (hlt : cr.codeIndex < (cr.code.codeCount : Int)) :
    (step cr).1 = .returnReachWatch ∧
    (step cr).2.codeIndex = cr.codeIndex ∧
    (step cr).2.memory = cr.memory := by
  obtain ⟨code, ci, mem, mp, df, bp, cbp, bpu, wa, wu, wc, wh, us, se, si, ue, inp, out⟩ := cr
  simp only [currentOp] at hop
  subst hdf hse hwc hwh hwu
  have hlt2 : ci < (code.codeCount : Int) := hlt
  have h1 : ¬ci ≥ (code.codeCount : Int) := by omega
  simp only [step, executeOperator, isWatchHit, hop, if_neg h1]
  norm_num
  decide

/-- C4 (amended): `Step` neither reads nor writes the breakpoint marks (an
armed breakpoint at the current instruction is executed anyway), it still
suspends on an armed watch at the current instruction, but — contrary to the
original claim — it does honor the pending stop point: at an armed stop index
it suspends with `returnReachStop`, consuming the stop point and executing
nothing. -/
theorem claim_C4 :
    (∀ (cr : CodeRunner) (l : List Bool),
        step { cr with codeBreakPointed := l } =
          ((step cr).1, { (step cr).2 with codeBreakPointed := l }))
  ∧ (∀ cr : CodeRunner, cr.debugFlag = true → cr.stopEnabled = false →
        currentOp cr = .opAdd → cr.watchChecked = true → cr.watchHit = true →
        cr.watchUsed = false → cr.codeIndex < (cr.code.codeCount : Int) →
        (step cr).1 = .returnReachWatch ∧ (step cr).2.codeIndex = cr.codeIndex ∧
        (step cr).2.memory = cr.memory)
  ∧ (∀ cr : CodeRunner, cr.debugFlag = true → cr.stopEnabled = true →
        cr.codeIndex = cr.stopIndex → cr.codeIndex < (cr.code.codeCount : Int) →
        step cr = (.returnReachStop, { cr with stopEnabled := false })) :=
  ⟨step_bp,
   fun _ h1 h2 h3 h4 h5 h6 h7 => step_watch h1 h2 h3 h4 h5 h6 h7,
   fun _ h1 h2 h3 h4 => step_stop h1 h2 h3 h4⟩

/-- A one-instruction program with an armed stop point at instruction 0. -/
def c4code : Code := ⟨[⟨.opAdd, 1⟩], 1, 1, []⟩

def c4runner : CodeRunner :=
  { CodeRunner.new c4code true with stopEnabled := true, stopIndex := 0 }

/-- A two-`Add` program with a watchpoint on address 0 (the initial pointer). -/
def c2code : Code := ⟨[⟨.opAdd, 1⟩, ⟨.opAdd, 1⟩], 2, 1, []⟩

def c2runner : CodeRunner :=
  { CodeRunner.new c2code true with watchAddress := [0] }

def c2wrunner : CodeRunner :=
  { c2runner with watchChecked := true, watchHit := true }

/-- C4 as written is false: `step()` does not ignore the pending stop point —
on a runner whose stop point is armed at the current instruction it suspends
with `returnReachStop`, leaving the cursor and the tape untouched instead of
executing one instruction. -/
theorem claim_C4_counterexample :
    (step c4runner).1 = .returnReachStop
  ∧ (step c4runner).2.codeIndex = 0
  ∧ (step c4runner).2.memory = Mem.new
  ∧ (step c4runner).2.stopEnabled = false :=
  ⟨rfl, rfl, rfl, rfl⟩

theorem claim_C4_witness :
    (step { c4runner with codeBreakPointed := [true] } =
       ((step c4runner).1, { (step c4runner).2 with codeBreakPointed := [true] }))
  ∧ step c4runner = (.returnReachStop, { c4runner with stopEnabled := false })
  ∧ ((step c2wrunner).1 = .returnReachWatch ∧ (step c2wrunner).2.codeIndex = 0 ∧
       (step c2wrunner).2.memory = Mem.new) :=
  ⟨claim_C4.1 c4runner [true],
   claim_C4.2.2 c4runner rfl rfl rfl (by decide),
   claim_C4.2.1 c2wrunner rfl rfl rfl rfl rfl rfl (by decide)⟩

/-- C2 (amended): with the watch cached as hit and the toggle clear, an `Add`
at the watched address suspends before mutating; resuming executes that `Add`
and leaves the toggle clear again (`watchUsed = false`) with `watchHit` and
`watchChecked` still cached — so the very next mutating instruction at the
same address suspends again: the watch fires once per mutating instruction,
not once per contiguous dwell. -/
theorem claim_C2 (cr : CodeRunner) (hdf : cr.debugFlag = true)
    (hse : cr.stopEnabled = false) (hop : currentOp cr = .opAdd)
    (hwc : cr.watchChecked = true) (hwh : cr.watchHit = true)
    (hwu : cr.watchUsed = false) :
    (executeOperator cr).1 = .returnReachWatch
  ∧ (executeOperator cr).2.codeIndex = cr.codeIndex
  ∧ (executeOperator cr).2.memory = cr.memory
  ∧ (executeOperator cr).2.watchChecked = true
  ∧ (executeOperator cr).2.watchHit = true
  ∧ (executeOperator cr).2.watchUsed = true
  ∧ (executeOperator (executeOperator cr).2).1 ≠ .returnReachWatch
  ∧ (executeOperator (executeOperator cr).2).2.watchUsed = false
  ∧ (executeOperator (executeOperator cr).2).2.watchChecked = true
  ∧ (executeOperator (executeOperator cr).2).2.watchHit = true
  ∧ (executeOperator (executeOperator cr).2).2.memoryPointer = cr.memoryPointer := by
  obtain ⟨code, ci, mem, mp, df, bp, cbp, bpu, wa, wu, wc, wh, us, se, si, ue, inp, out⟩ := cr
  simp only [currentOp] at hop
  subst hdf hse hwc hwh hwu
  have hex1 : executeOperator
      ⟨code, ci, mem, mp, true, bp, cbp, bpu, wa, false, true, true, us, false, si, ue, inp, out⟩ =
      (.returnReachWatch,
       ⟨code, ci + 1 - 1, mem, mp, true, bp, cbp, bpu, wa, true, true, true, us, false, si, ue, inp, out⟩) := by
    simp only [executeOperator, isWatchHit, hop]
    norm_num
  rw [hex1]
  have hci : ci + 1 - 1 = ci := by omega
  have hex2 : executeOperator
      ⟨code, ci + 1 - 1, mem, mp, true, bp, cbp, bpu, wa, true, true, true, us, false, si, ue, inp, out⟩ =
      (if ci + 1 ≥ (code.codeCount : Int) then .returnAfterFinish else .returnAfterExecuteOperator,
       ⟨code, ci + 1, mem.add (code.instrs.getD ci.toNat default).aux, mp, true, bp, cbp, bpu, wa,
        false, true, true, us, false, si, ue, inp, out⟩) := by
    rw [hci]
    simp only [executeOperator, isWatchHit, hop]
    norm_num
    split_ifs <;> rfl
  rw [hex2]
  refine ⟨rfl, by dsimp only; omega, rfl, rfl, rfl, rfl, ?_, rfl, rfl, rfl, rfl⟩
  dsimp only
  split_ifs <;> decide

/-- C2 as written is false: on a two-`Add` program with a watch on the start
address and no pointer motion at all, `Continue` suspends at the first `Add`
and, after resuming, suspends again at the second `Add` — both mutations
suspend, not only the first. -/
theorem claim_C2_counterexample :
    (continueRun 10 c2runner).map (fun p => (p.1, p.2.codeIndex))
      = some (.returnReachWatch, 0)
  ∧ (((continueRun 10 c2runner).bind fun p => continueRun 10 p.2).map
        (fun p => (p.1, p.2.codeIndex)))
      = some (.returnReachWatch, 1) :=
  ⟨rfl, rfl⟩

theorem claim_C2_witness :
    (executeOperator c2wrunner).1 = .returnReachWatch
  ∧ (executeOperator (executeOperator c2wrunner).2).1 ≠ .returnReachWatch
  ∧ (executeOperator (executeOperator c2wrunner).2).2.watchUsed = false :=
  ⟨(claim_C2 c2wrunner rfl rfl rfl rfl rfl rfl).1,
   (claim_C2 c2wrunner rfl rfl rfl rfl rfl rfl).2.2.2.2.2.2.1,
   (claim_C2 c2wrunner rfl rfl rfl rfl rfl rfl).2.2.2.2.2.2.2.1⟩

/-- C5 (amended): `AddBreakPoint` on an in-range line whose `LineBegins` entry
is the `-1` sentinel only issues the inert warning — the runner, and in
particular the breakpoint set and the instruction marks, are unchanged, so the
breakpoint is NOT inserted and can never suspend execution. -/
theorem claim_C5 (cr : CodeRunner) (line : Nat) (hdf : cr.debugFlag = true)
    (h0 : line ≠ 0) (hle : line ≤ cr.code.lineCount)
    (hmem : cr.breakPoint.contains line = false)
    (hsent : cr.code.lineBegins.getD (line - 1) 0 = -1) :
    addBreakPoint cr line = (.inert, cr) := by
  unfold addBreakPoint
  rw [if_neg (by simp [hdf])]
  rw [if_neg (by omega : ¬(line = 0 ∨ line > cr.code.lineCount))]
  rw [if_pos (by simpa using hmem)]
  rw [if_pos hsent]

/-- The program `"+\n\n"` analysed in debug mode: one instruction, two lines,
line 2 blank with the `-1` sentinel. -/
def c5code : Code := ⟨[⟨.opAdd, 1⟩], 1, 2, [0, -1]⟩

def c5runner : CodeRunner := CodeRunner.new c5code true

/-- C5 as written is false: the inert breakpoint is not accepted into the
breakpoint set — after `AddBreakPoint` on blank line 2 the sorted breakpoint
list is still empty and the runner is unchanged (only the warning differs from
a silent no-op). -/
theorem claim_C5_counterexample :
    addBreakPoint c5runner 2 = (.inert, c5runner)
  ∧ (addBreakPoint c5runner 2).2.breakPoint = []
  ∧ (addBreakPoint c5runner 2).2.codeBreakPointed = [false] :=
  ⟨rfl, rfl, rfl⟩

theorem claim_C5_witness : addBreakPoint c5runner 2 = (.inert, c5runner) :=
  claim_C5 c5runner 2 rfl (by decide) (by decide) rfl rfl

/-- C8 (amended): `Run` is exactly `Reset` followed by `Continue`; `Reset`
discards the tape, zeroes the cursor and logical pointer and clears the
one-shot flags `breakPointUsed`, `watchUsed` and `untilEnabled`, while keeping
the breakpoint, watchpoint and stop-point configuration — including the
armed `stopEnabled` flag, which contrary to the original claim is NOT reset —
and also keeping the `watchChecked`/`watchHit` caches. -/
theorem claim_C8 (cr : CodeRunner) (fuel : Nat) :
    run fuel cr = continueRun fuel (reset cr)
  ∧ (reset cr).codeIndex = 0
  ∧ (reset cr).memory = Mem.new
  ∧ (reset cr).memoryPointer = 0
  ∧ (reset cr).breakPointUsed = false
  ∧ (reset cr).watchUsed = false
  ∧ (reset cr).untilEnabled = false
  ∧ (reset cr).breakPoint = cr.breakPoint
  ∧ (reset cr).codeBreakPointed = cr.codeBreakPointed
  ∧ (reset cr).watchAddress = cr.watchAddress
  ∧ (reset cr).stopEnabled = cr.stopEnabled
  ∧ (reset cr).stopIndex = cr.stopIndex
  ∧ (reset cr).watchChecked = cr.watchChecked
  ∧ (reset cr).watchHit = cr.watchHit
  ∧ (reset cr).code = cr.code
  ∧ (reset cr).debugFlag = cr.debugFlag :=
  ⟨rfl, rfl, rfl, rfl, rfl, rfl, rfl, rfl, rfl, rfl, rfl, rfl, rfl, rfl, rfl, rfl⟩

/-- C8 as written is false about the stop point: after `Reset` (hence inside
`Run`) the stop point is still armed, and `Run` on a runner with a stop point
at instruction 0 suspends at it instead of running the program. -/
theorem claim_C8_counterexample :
    (reset c4runner).stopEnabled = true
  ∧ (run 5 c4runner).map (fun p => p.1) = some .returnReachStop
  ∧ (run 5 c4runner).map (fun p => p.2.memory) = some Mem.new :=
  ⟨rfl, rfl, rfl⟩

/-! ### Analyser lemmas -/

theorem setAux_map_op (l : List Instr) (i v : Nat) :
    (setAux l i v).map Instr.op = l.map Instr.op := by
  induction l generalizing i with
  | nil => rfl
  | cons x xs ih =>
    cases i with
    | zero => rfl
    | succ n => simp [setAux, ih]

/-- C9: in debug mode, a character scanned while the current line is still
empty can only append a fresh instruction — the opcode sequence grows by
exactly the classified operator and nothing merges into or cancels against the
previous line's last instruction; non-operator characters leave the state
untouched, and every line starts with `lineIsEmpty = true`. -/
theorem claim_C9 :
    (∀ (a : Analyser) (code : Code) (c : Char) (a1 : Analyser) (code1 : Code),
        a.debugFlag = true → a.lineIsEmpty = true → toOperator c ≠ .invalid →
        analyseChar a code c = .ok (a1, code1) →
        code1.instrs.map Instr.op = code.instrs.map Instr.op ++ [toOperator c])
  ∧ (∀ (a : Analyser) (code : Code) (c : Char) (a1 : Analyser) (code1 : Code),
        toOperator c = .invalid → analyseChar a code c = .ok (a1, code1) →
        a1 = a ∧ code1 = code)
  ∧ (∀ (a : Analyser) (line : List Char), (lineInit a line).lineIsEmpty = true) := by
  refine ⟨?_, ?_, fun a line => rfl⟩
  · intro a code c a1 code1 hdf hle hinv heq
    rcases hc : toOperator c
    case invalid => exact absurd hc hinv
    case opAdd | opSub | opMoveLeft | opMoveRight =>
      simp only [analyseChar, hc, processSimpleOperator, hdf, hle, Bool.and_self,
        not_true_eq_false, false_and, if_false, Except.ok.injEq, Prod.mk.injEq] at heq
      obtain ⟨-, rfl⟩ := heq
      simp [pushOperator]
    case opInput | opOutput | opLeftBracket =>
      simp only [analyseChar, hc, Except.ok.injEq, Prod.mk.injEq] at heq
      obtain ⟨-, rfl⟩ := heq
      simp [pushOperator]
    case opRightBracket =>
      rcases hstk : a.bracketIndexStack with _ | ⟨i, rest⟩ <;>
        simp only [analyseChar, hc, setJumpIndex, hstk, Except.bind, Except.ok.injEq,
          Prod.mk.injEq] at heq
      · cases heq
      · obtain ⟨-, rfl⟩ := heq
        simp [setAux_map_op, pushOperator]
  · intro a code c a1 code1 hc heq
    simp only [analyseChar, hc, Except.ok.injEq, Prod.mk.injEq] at heq
    obtain ⟨rfl, rfl⟩ := heq
    exact ⟨rfl, rfl⟩

def c9a : Analyser := lineInit (initialAnalyser true) ['+']

def c9a1 : Analyser := { c9a with lastOperator := .opAdd, lineIsEmpty := false }

def c9code1 : Code := ⟨[⟨.opAdd, 1⟩], 0, 0, []⟩

theorem claim_C9_witness :
    c9code1.instrs.map Instr.op = (Code.new true).instrs.map Instr.op ++ [toOperator '+'] :=
  claim_C9.1 c9a (Code.new true) '+' c9a1 c9code1 rfl rfl (by decide) rfl

theorem updLastAux_concat (f : Nat → Nat) (l : List Instr) (x : Instr) :
    updLastAux f (l ++ [x]) = l ++ [⟨x.op, f x.aux⟩] := by
  induction l with
  | nil => rfl
  | cons y ys ih =>
    rcases h : ys ++ [x] with _ | ⟨c, cs⟩
    · exact absurd h (by simp)
    · calc updLastAux f ((y :: ys) ++ [x]) = y :: updLastAux f (ys ++ [x]) := by
            rw [List.cons_append, h]; rfl
        _ = y :: (ys ++ [⟨x.op, f x.aux⟩]) := by rw [ih]
        _ = (y :: ys) ++ [⟨x.op, f x.aux⟩] := rfl

/-- One scanned character with a known successful result. -/
theorem analyseChars_cons_ok {a : Analyser} {code : Code} {c : Char}
    {a1 : Analyser} {c1 : Code}
    (h : analyseChar { a with columnIndex := a.columnIndex + 1 } code c = .ok (a1, c1))
    (cs : List Char) :
    analyseChars a code (c :: cs) = analyseChars a1 c1 cs := by
  simp only [analyseChars]
  rw [h]
  rfl

/-- One scanned character with a known failing result. -/
theorem analyseChars_cons_err {a : Analyser} {code : Code} {c : Char}
    {e : AnalyseError}
    (h : analyseChar { a with columnIndex := a.columnIndex + 1 } code c = .error e)
    (cs : List Char) :
    analyseChars a code (c :: cs) = .error e := by
  simp only [analyseChars]
  rw [h]
  rfl

/-- Appending the scanned characters composes the scans. -/
theorem analyseChars_append {a : Analyser} {code : Code} {l1 : List Char}
    {a1 : Analyser} {c1 : Code} (h : analyseChars a code l1 = .ok (a1, c1))
    (l2 : List Char) :
    analyseChars a code (l1 ++ l2) = analyseChars a1 c1 l2 := by
  induction l1 generalizing a code with
  | nil =>
    simp only [analyseChars, Except.ok.injEq, Prod.mk.injEq] at h
    obtain ⟨rfl, rfl⟩ := h
    rfl
  | cons c cs ih =>
    rcases hch : analyseChar { a with columnIndex := a.columnIndex + 1 } code c with e | ⟨a2, c2⟩
    · rw [analyseChars_cons_err hch cs] at h
      exact Except.noConfusion h
    · rw [List.cons_append, analyseChars_cons_ok hch (cs ++ l2)]
      rw [analyseChars_cons_ok hch cs] at h
      exact ih h

/-- A simple operator scanned with `lastOperator = Invalid` is pushed. -/
theorem processSimple_push_of_invalid {a : Analyser} {code : Code} {op : Operator}
    (hlast : a.lastOperator = .invalid)
    (hops : op = .opAdd ∨ op = .opSub ∨ op = .opMoveLeft ∨ op = .opMoveRight) :
    processSimpleOperator a code op =
      ({ a with lastOperator := op, lineIsEmpty := false }, pushOperator code op) := by
  unfold processSimpleOperator
  rw [if_neg, if_neg]
  · rw [hlast]
    rintro ⟨-, h⟩
    rcases hops with rfl | rfl | rfl | rfl <;> cases h
  · rw [hlast]
    rintro ⟨-, h⟩
    rcases hops with rfl | rfl | rfl | rfl <;> cases h

/-- Merging a run of `+` into a pending `Add`. -/
theorem addMerge (m : Nat) (a : Analyser) (code : Code) (pre : List Instr) (k : Nat)
    (hlast : a.lastOperator = .opAdd) (hlie : a.lineIsEmpty = false)
    (hinstrs : code.instrs = pre ++ [⟨.opAdd, k⟩]) :
    analyseChars a code (List.replicate m '+') =
      .ok ({ a with columnIndex := a.columnIndex + m },
           { code with instrs := pre ++ [⟨.opAdd, k + m⟩] }) := by
  induction m generalizing a code k with
  | zero =>
    obtain ⟨df, lc, ci, cl, lie, lo, st⟩ := a
    obtain ⟨ins, cc, lcc, lb⟩ := code
    subst hlast hlie hinstrs
    simp [analyseChars]
  | succ m ih =>
    obtain ⟨df, lc, ci, cl, lie, lo, st⟩ := a
    obtain ⟨ins, cc, lcc, lb⟩ := code
    subst hlast hlie hinstrs
    rw [List.replicate_succ]
    have hchar : analyseChar
        ⟨df, lc, ci + 1, cl, false, .opAdd, st⟩ ⟨pre ++ [⟨.opAdd, k⟩], cc, lcc, lb⟩ '+' =
        .ok (⟨df, lc, ci + 1, cl, false, .opAdd, st⟩,
             ⟨pre ++ [⟨.opAdd, k + 1⟩], cc, lcc, lb⟩) := by
      show Except.ok (processSimpleOperator _ _ .opAdd) = _
      unfold processSimpleOperator
      rw [if_pos (by simp)]
      rw [show updLastAux (fun n => n + 1) (pre ++ [⟨.opAdd, k⟩]) = pre ++ [⟨.opAdd, k + 1⟩]
            from updLastAux_concat ..]
    rw [analyseChars_cons_ok hchar]
    have hih := ih ⟨df, lc, ci + 1, cl, false, .opAdd, st⟩ ⟨pre ++ [⟨.opAdd, k + 1⟩], cc, lcc, lb⟩
      (k + 1) rfl rfl rfl
    rw [hih]
    simp only [Except.ok.injEq, Prod.mk.injEq, Analyser.mk.injEq, Code.mk.injEq,
      List.append_cancel_left_eq, List.cons.injEq, Instr.mk.injEq, and_true, true_and]
    omega

/-- Merging a run of `-` into a pending `Sub`. -/
theorem subMerge (m : Nat) (a : Analyser) (code : Code) (pre : List Instr) (k : Nat)
    (hlast : a.lastOperator = .opSub) (hlie : a.lineIsEmpty = false)
    (hinstrs : code.instrs = pre ++ [⟨.opSub, k⟩]) :
    analyseChars a code (List.replicate m '-') =
      .ok ({ a with columnIndex := a.columnIndex + m },
           { code with instrs := pre ++ [⟨.opSub, k + m⟩] }) := by
  induction m generalizing a code k with
  | zero =>
    obtain ⟨df, lc, ci, cl, lie, lo, st⟩ := a
    obtain ⟨ins, cc, lcc, lb⟩ := code
    subst hlast hlie hinstrs
    simp [analyseChars]
  | succ m ih =>
    obtain ⟨df, lc, ci, cl, lie, lo, st⟩ := a
    obtain ⟨ins, cc, lcc, lb⟩ := code
    subst hlast hlie hinstrs
    rw [List.replicate_succ]
    have hchar : analyseChar
        ⟨df, lc, ci + 1, cl, false, .opSub, st⟩ ⟨pre ++ [⟨.opSub, k⟩], cc, lcc, lb⟩ '-' =
        .ok (⟨df, lc, ci + 1, cl, false, .opSub, st⟩,
             ⟨pre ++ [⟨.opSub, k + 1⟩], cc, lcc, lb⟩) := by
      show Except.ok (processSimpleOperator _ _ .opSub) = _
      unfold processSimpleOperator
      rw [if_pos (by simp)]
      rw [show updLastAux (fun n => n + 1) (pre ++ [⟨.opSub, k⟩]) = pre ++ [⟨.opSub, k + 1⟩]
            from updLastAux_concat ..]
    rw [analyseChars_cons_ok hchar]
    have hih := ih ⟨df, lc, ci + 1, cl, false, .opSub, st⟩ ⟨pre ++ [⟨.opSub, k + 1⟩], cc, lcc, lb⟩
      (k + 1) rfl rfl rfl
    rw [hih]
    simp only [Except.ok.injEq, Prod.mk.injEq, Analyser.mk.injEq, Code.mk.injEq,
      List.append_cancel_left_eq, List.cons.injEq, Instr.mk.injEq, and_true, true_and]
    omega

/-- A run of `-` cancelling against a pending `Add` without exhausting it. -/
theorem subReduce (m : Nat) (a : Analyser) (code : Code) (pre : List Instr) (k : Nat)
    (hm : m < k)
    (hlast : a.lastOperator = .opAdd) (hlie : a.lineIsEmpty = false)
    (hinstrs : code.instrs = pre ++ [⟨.opAdd, k⟩]) :
    analyseChars a code (List.replicate m '-') =
      .ok ({ a with columnIndex := a.columnIndex + m },
           { code with instrs := pre ++ [⟨.opAdd, k - m⟩] }) := by
  induction m generalizing a code k with
  | zero =>
    obtain ⟨df, lc, ci, cl, lie, lo, st⟩ := a
    obtain ⟨ins, cc, lcc, lb⟩ := code
    subst hlast hlie hinstrs
    simp [analyseChars]
  | succ m ih =>
    obtain ⟨df, lc, ci, cl, lie, lo, st⟩ := a
    obtain ⟨ins, cc, lcc, lb⟩ := code
    subst hlast hlie hinstrs
    rw [List.replicate_succ]
    have hchar : analyseChar
        ⟨df, lc, ci + 1, cl, false, .opAdd, st⟩ ⟨pre ++ [⟨.opAdd, k⟩], cc, lcc, lb⟩ '-' =
        .ok (⟨df, lc, ci + 1, cl, false, .opAdd, st⟩,
             ⟨pre ++ [⟨.opAdd, k - 1⟩], cc, lcc, lb⟩) := by
      show Except.ok (processSimpleOperator _ _ .opSub) = _
      unfold processSimpleOperator
      rw [if_neg (by rintro ⟨-, h⟩; cases h)]
      rw [if_pos ⟨by simp, rfl⟩]
      unfold reduceLastOperator
      simp only [show updLastAux (fun n => n - 1) (pre ++ [⟨.opAdd, k⟩]) = pre ++ [⟨.opAdd, k - 1⟩]
            from updLastAux_concat .., List.getLast?_concat]
      rw [if_neg (show ¬(⟨.opAdd, k - 1⟩ : Instr).aux = 0 by show ¬(k - 1 = 0); omega)]
    rw [analyseChars_cons_ok hchar]
    have hih := ih ⟨df, lc, ci + 1, cl, false, .opAdd, st⟩ ⟨pre ++ [⟨.opAdd, k - 1⟩], cc, lcc, lb⟩
      (k - 1) (by omega) rfl rfl rfl
    rw [hih]
    simp only [Except.ok.injEq, Prod.mk.injEq, Analyser.mk.injEq, Code.mk.injEq,
      List.append_cancel_left_eq, List.cons.injEq, Instr.mk.injEq, and_true, true_and]
    omega

/-- A single `-` cancelling the last pending `Add 1` away entirely: the
instruction is removed and `lastOperator` falls back to `Invalid`. -/
theorem subRemove (a : Analyser) (code : Code)
    (hlast : a.lastOperator = .opAdd) (hlie : a.lineIsEmpty = false)
    (hinstrs : code.instrs = [⟨.opAdd, 1⟩]) :
    ∃ lie1 : Bool,
      analyseChars a code ['-'] =
        .ok ({ a with columnIndex := a.columnIndex + 1, lineIsEmpty := lie1,
                      lastOperator := .invalid },
             { code with instrs := [] }) := by
  obtain ⟨df, lc, ci, cl, lie, lo, st⟩ := a
  obtain ⟨ins, cc, lcc, lb⟩ := code
  subst hlast hlie hinstrs
  refine ⟨if df && lb.getD (lb.length - 1) 0 = ((0 : Nat) : Int) then true else false, ?_⟩
  have hchar : analyseChar
      ⟨df, lc, ci + 1, cl, false, .opAdd, st⟩ ⟨[⟨.opAdd, 1⟩], cc, lcc, lb⟩ '-' =
      .ok (⟨df, lc, ci + 1, cl,
            if df && lb.getD (lb.length - 1) 0 = ((0 : Nat) : Int) then true else false,
            .invalid, st⟩,
           ⟨[], cc, lcc, lb⟩) := by
    show Except.ok (processSimpleOperator _ _ .opSub) = _
    unfold processSimpleOperator
    rw [if_neg (by rintro ⟨-, h⟩; cases h)]
    rw [if_pos ⟨by simp, rfl⟩]
    rfl
  rw [analyseChars_cons_ok hchar]
  rfl

/-- An initial run of `+` scanned from `lastOperator = Invalid` and an empty
instruction stream yields one `Add` with the run length. -/
theorem addRun (A : Nat) (hA : 1 ≤ A) (a : Analyser) (code : Code)
    (hlast : a.lastOperator = .invalid) (hinstrs : code.instrs = []) :
    analyseChars a code (List.replicate A '+') =
      .ok ({ a with columnIndex := a.columnIndex + A, lastOperator := .opAdd,
                    lineIsEmpty := false },
           { code with instrs := [⟨.opAdd, A⟩] }) := by
  obtain ⟨A, rfl⟩ : ∃ n, A = n + 1 := ⟨A - 1, by omega⟩
  obtain ⟨df, lc, ci, cl, lie, lo, st⟩ := a
  obtain ⟨ins, cc, lcc, lb⟩ := code
  subst hlast hinstrs
  rw [List.replicate_succ]
  have hchar : analyseChar
      ⟨df, lc, ci + 1, cl, lie, .invalid, st⟩ ⟨[], cc, lcc, lb⟩ '+' =
      .ok (⟨df, lc, ci + 1, cl, false, .opAdd, st⟩, ⟨[⟨.opAdd, 1⟩], cc, lcc, lb⟩) := by
    show Except.ok (processSimpleOperator _ _ .opAdd) = _
    rw [processSimple_push_of_invalid rfl (Or.inl rfl)]
    rfl
  rw [analyseChars_cons_ok hchar]
  have hih := addMerge A ⟨df, lc, ci + 1, cl, false, .opAdd, st⟩ ⟨[⟨.opAdd, 1⟩], cc, lcc, lb⟩
    [] 1 rfl rfl rfl
  rw [hih]
  simp only [Except.ok.injEq, Prod.mk.injEq, Analyser.mk.injEq, Code.mk.injEq,
    List.nil_append, List.cons.injEq, Instr.mk.injEq, and_true, true_and]
  omega

/-- A run of `-` scanned from `lastOperator = Invalid` and an empty instruction
stream yields one `Sub` with the run length. -/
theorem subRun (B : Nat) (hB : 1 ≤ B) (a : Analyser) (code : Code)
    (hlast : a.lastOperator = .invalid) (hinstrs : code.instrs = []) :
    analyseChars a code (List.replicate B '-') =
      .ok ({ a with columnIndex := a.columnIndex + B, lastOperator := .opSub,
                    lineIsEmpty := false },
           { code with instrs := [⟨.opSub, B⟩] }) := by
  obtain ⟨B, rfl⟩ : ∃ n, B = n + 1 := ⟨B - 1, by omega⟩
  obtain ⟨df, lc, ci, cl, lie, lo, st⟩ := a
  obtain ⟨ins, cc, lcc, lb⟩ := code
  subst hlast hinstrs
  rw [List.replicate_succ]
  have hchar : analyseChar
      ⟨df, lc, ci + 1, cl, lie, .invalid, st⟩ ⟨[], cc, lcc, lb⟩ '-' =
      .ok (⟨df, lc, ci + 1, cl, false, .opSub, st⟩, ⟨[⟨.opSub, 1⟩], cc, lcc, lb⟩) := by
    show Except.ok (processSimpleOperator _ _ .opSub) = _
    rw [processSimple_push_of_invalid rfl (Or.inr (Or.inl rfl))]
    rfl
  rw [analyseChars_cons_ok hchar]
  have hih := subMerge B ⟨df, lc, ci + 1, cl, false, .opSub, st⟩ ⟨[⟨.opSub, 1⟩], cc, lcc, lb⟩
    [] 1 rfl rfl rfl
  rw [hih]
  simp only [Except.ok.injEq, Prod.mk.injEq, Analyser.mk.injEq, Code.mk.injEq,
    List.nil_append, List.cons.injEq, Instr.mk.injEq, and_true, true_and]
  omega

theorem breakLine_no_newline {l : List Char} (h : ∀ c ∈ l, c ≠ '\n') :
    breakLine l = (l, []) := by
  induction l with
  | nil => rfl
  | cons c cs ih =>
    simp only [breakLine]
    rw [if_neg (h c (List.mem_cons_self c cs))]
    rw [ih fun x hx => h x (List.mem_cons_of_mem c hx)]

/-- A nonempty newline-free text is a single line. -/
theorem splitLines_single {l : List Char} (hne : l ≠ []) (h : ∀ c ∈ l, c ≠ '\n') :
    splitLines l = [l] := by
  rcases l with _ | ⟨c, cs⟩
  · exact absurd rfl hne
  · rw [splitLines, breakLine_no_newline h]
    show (c :: cs) :: splitLines [] = [c :: cs]
    rw [splitLines]

/-- The code value after the line-begin bookkeeping of the first line. -/
def firstLineCode (d : Bool) : Code :=
  if d then
    { Code.new d with
        lineBegins := (Code.new d).lineBegins ++ [((Code.new d).instrs.length : Int)] }
  else Code.new d

theorem analyseLines_single (d : Bool) (line : List Char) {a1 : Analyser} {c1 : Code}
    (h : analyseChars (lineInit (initialAnalyser d) line) (firstLineCode d) line
          = .ok (a1, c1)) :
    analyseLines (initialAnalyser d) (Code.new d) [line] = .ok (a1, c1) := by
  cases d <;>
    · simp only [analyseLines, initialAnalyser, firstLineCode] at h ⊢
      rw [show analyseChars (lineInit ⟨_, 0, 0, [], true, .invalid, []⟩ line) _ line
            = .ok (a1, c1) from h]
      rfl

/-- `Analyse` after a successful line scan whose bracket stack is empty and
whose instruction stream is nonempty returns the scanned instructions. -/
theorem analyse_ok {text : List Char} {d : Bool} {a1 : Analyser} {c1 : Code}
    (hne : ¬text.length = 0)
    (hlines : analyseLines (initialAnalyser d) (Code.new d) (splitLines text) = .ok (a1, c1))
    (hstk : a1.bracketIndexStack = [])
    (hinstr : ¬c1.instrs.length = 0) :
    ∃ c : Code, analyse text d = .ok c ∧ c.instrs = c1.instrs := by
  have hinstr2 : ¬c1.instrs = [] := by
    intro he
    rw [he] at hinstr
    exact hinstr rfl
  cases d
  · unfold analyse
    rw [if_neg hne, hlines]
    simp only [checkBracketMatch, hstk, if_true]
    norm_num
    rw [if_neg hinstr2]
    exact ⟨_, rfl, rfl⟩
  · unfold analyse
    rw [if_neg hne, hlines]
    simp only [checkBracketMatch, hstk, if_true]
    norm_num
    rw [if_neg (show ¬(adjustLineBegins
      { c1 with lineCount := a1.lineCount, codeCount := c1.instrs.length }).instrs = []
      from hinstr2)]
    exact ⟨_, rfl, rfl⟩

/-- `Analyse` after a successful line scan with empty bracket stack and empty
instruction stream fails with the empty-code error. -/
theorem analyse_empty {text : List Char} {d : Bool} {a1 : Analyser} {c1 : Code}
    (hne : ¬text.length = 0)
    (hlines : analyseLines (initialAnalyser d) (Code.new d) (splitLines text) = .ok (a1, c1))
    (hstk : a1.bracketIndexStack = [])
    (hinstr : c1.instrs.length = 0) :
    analyse text d = .error .emptyCode := by
  have he : c1.instrs = [] := by
    cases hc : c1.instrs with
    | nil => rfl
    | cons x xs => rw [hc] at hinstr; exact absurd hinstr (by simp)
  cases d
  · unfold analyse
    rw [if_neg hne, hlines]
    simp only [checkBracketMatch, hstk, if_true]
    norm_num
    intro h
    exact absurd he h
  · unfold analyse
    rw [if_neg hne, hlines]
    simp only [checkBracketMatch, hstk, if_true]
    norm_num
    intro h
    exact absurd (show (adjustLineBegins
      { c1 with lineCount := a1.lineCount, codeCount := c1.instrs.length }).instrs = []
      from he) h

/-- C3: an `Increment` run of length `A` directly followed by a `Decrement` run
of length `B` on one line yields zero instructions when `A = B` (the standalone
program then fails as empty), one `Add (A-B)` when `A > B`, and one
`Sub (B-A)` when `A < B` — in debug mode and non-debug mode alike. -/
theorem claim_C3 (A B : Nat) (d : Bool) (hA : 1 ≤ A) (hB : 1 ≤ B) :
    (B < A → ∃ c : Code,
        analyse (List.replicate A '+' ++ List.replicate B '-') d = .ok c ∧
        c.instrs = [⟨.opAdd, A - B⟩])
  ∧ (A < B → ∃ c : Code,
        analyse (List.replicate A '+' ++ List.replicate B '-') d = .ok c ∧
        c.instrs = [⟨.opSub, B - A⟩])
  ∧ (A = B → (∃ (a1 : Analyser) (c1 : Code),
          analyseLines (initialAnalyser d) (Code.new d)
            (splitLines (List.replicate A '+' ++ List.replicate B '-')) = .ok (a1, c1) ∧
          c1.instrs = [])
      ∧ analyse (List.replicate A '+' ++ List.replicate B '-') d = .error .emptyCode) := by
  have hne : ¬(List.replicate A '+' ++ List.replicate B '-').length = 0 := by
    simp only [List.length_append, List.length_replicate]
    omega
  have hne2 : (List.replicate A '+' ++ List.replicate B '-') ≠ [] := by
    intro h
    rw [h] at hne
    exact hne rfl
  have hnl : ∀ c ∈ List.replicate A '+' ++ List.replicate B '-', c ≠ '\n' := by
    intro c hc
    rcases List.mem_append.mp hc with h | h <;>
      · rw [List.eq_of_mem_replicate h]
        decide
  have hsplit := splitLines_single hne2 hnl
  have hfc : (firstLineCode d).instrs = [] := by cases d <;> rfl
  have h1 := addRun A hA (lineInit (initialAnalyser d) (List.replicate A '+' ++ List.replicate B '-'))
    (firstLineCode d) rfl hfc
  refine ⟨?_, ?_, ?_⟩
  · -- A > B
    intro hBA
    have hscan := (analyseChars_append h1 (List.replicate B '-')).trans
      (subReduce B _ _ [] A hBA rfl rfl rfl)
    have hlines := analyseLines_single d _ hscan
    rw [← hsplit] at hlines
    obtain ⟨c, hc, hci⟩ := analyse_ok hne hlines rfl (by simp)
    exact ⟨c, hc, hci.trans rfl⟩
  · -- A < B
    intro hAB
    have h2 := subReduce (A - 1)
      ⟨d, 1, -1 + (A : Int), List.replicate A '+' ++ List.replicate B '-', false, .opAdd, []⟩
      { firstLineCode d with instrs := [⟨.opAdd, A⟩] } [] A (by omega) rfl rfl rfl
    have hA1 : A - (A - 1) = 1 := by omega
    rw [hA1] at h2
    obtain ⟨lie1, h3⟩ := subRemove
      ⟨d, 1, -1 + (A : Int) + ((A - 1 : Nat) : Int),
       List.replicate A '+' ++ List.replicate B '-', false, .opAdd, []⟩
      { firstLineCode d with instrs := [⟨.opAdd, 1⟩] } rfl rfl rfl
    have h4 := subRun (B - A) (by omega)
      ⟨d, 1, -1 + (A : Int) + ((A - 1 : Nat) : Int) + 1,
       List.replicate A '+' ++ List.replicate B '-', lie1, .invalid, []⟩
      { firstLineCode d with instrs := ([] : List Instr) } rfl rfl
    have hBsplit : List.replicate B '-' =
        List.replicate (A - 1) '-' ++ ('-' :: List.replicate (B - A) '-') := by
      rw [show '-' :: List.replicate (B - A) '-' = List.replicate (1 + (B - A)) '-' by
        rw [List.replicate_add]; rfl]
      rw [← List.replicate_add]
      congr 1
      omega
    have hscanA := analyseChars_append h1
      (List.replicate (A - 1) '-' ++ ('-' :: List.replicate (B - A) '-'))
    have hscan2 := hscanA.trans (analyseChars_append h2 ('-' :: List.replicate (B - A) '-'))
    have hscan3 := hscan2.trans (analyseChars_append h3 (List.replicate (B - A) '-'))
    have hscan4 := hscan3.trans h4
    rw [← hBsplit] at hscan4
    have hlines := analyseLines_single d _ hscan4
    rw [← hsplit] at hlines
    obtain ⟨c, hc, hci⟩ := analyse_ok hne hlines rfl (by simp)
    exact ⟨c, hc, hci.trans rfl⟩
  · -- A = B
    intro hAB
    subst hAB
    have h2 := subReduce (A - 1)
      ⟨d, 1, -1 + (A : Int), List.replicate A '+' ++ List.replicate A '-', false, .opAdd, []⟩
      { firstLineCode d with instrs := [⟨.opAdd, A⟩] } [] A (by omega) rfl rfl rfl
    have hA1 : A - (A - 1) = 1 := by omega
    rw [hA1] at h2
    obtain ⟨lie1, h3⟩ := subRemove
      ⟨d, 1, -1 + (A : Int) + ((A - 1 : Nat) : Int),
       List.replicate A '+' ++ List.replicate A '-', false, .opAdd, []⟩
      { firstLineCode d with instrs := [⟨.opAdd, 1⟩] } rfl rfl rfl
    have hAsplit : List.replicate A '-' = List.replicate (A - 1) '-' ++ ['-'] := by
      rw [show (['-'] : List Char) = List.replicate 1 '-' from rfl, ← List.replicate_add]
      congr 1
      omega
    have hscanA := analyseChars_append h1 (List.replicate (A - 1) '-' ++ ['-'])
    have hscan2 := hscanA.trans (analyseChars_append h2 ['-'])
    have hscan3 := hscan2.trans h3
    rw [← hAsplit] at hscan3
    have hlines := analyseLines_single d _ hscan3
    rw [← hsplit] at hlines
    exact ⟨⟨_, _, hlines, rfl⟩, analyse_empty hne hlines rfl rfl⟩

theorem claim_C3_witness :
    (∃ c : Code, analyse (List.replicate 3 '+' ++ List.replicate 1 '-') false = .ok c ∧
        c.instrs = [⟨.opAdd, 2⟩])
  ∧ (∃ c : Code, analyse (List.replicate 1 '+' ++ List.replicate 3 '-') true = .ok c ∧
        c.instrs = [⟨.opSub, 2⟩])
  ∧ analyse (List.replicate 2 '+' ++ List.replicate 2 '-') false = .error .emptyCode :=
  ⟨(claim_C3 3 1 false (by decide) (by decide)).1 (by decide),
   (claim_C3 1 3 true (by decide) (by decide)).2.1 (by decide),
   ((claim_C3 2 2 false (by decide) (by decide)).2.2 rfl).2⟩

/-! ### Unmatched-bracket reporting (C6) -/

/-- Spec-side: the columns of the open brackets of one line, leftmost first. -/
def openColsInLine : List Char → Int → List Int
  | [], _ => []
  | c :: cs, col =>
    if c = '[' then col :: openColsInLine cs (col + 1)
    else openColsInLine cs (col + 1)

/-- Spec-side: every open bracket of the text with its 1-based line number,
column and line text, in source order. -/
def openPositions : List (List Char) → Nat → List (Nat × Int × List Char)
  | [], _ => []
  | l :: ls, n =>
    (openColsInLine l 0).map (fun col => (n + 1, col, l)) ++ openPositions ls (n + 1)

/-- Spec-side: positions of the unmatched open brackets (stack scan over the
lines), outermost (first) unmatched bracket first. -/
def scanLineOpens : List Char → Nat → Int → List (Nat × Int) → List (Nat × Int)
  | [], _, _, stack => stack
  | c :: cs, lineNo, col, stack =>
    if c = '[' then scanLineOpens cs lineNo (col + 1) ((lineNo, col) :: stack)
    else if c = ']' then scanLineOpens cs lineNo (col + 1) stack.tail
    else scanLineOpens cs lineNo (col + 1) stack

def unmatchedOpensGo : List (List Char) → Nat → List (Nat × Int) → List (Nat × Int)
  | [], _, stack => stack.reverse
  | l :: ls, n, stack => unmatchedOpensGo ls (n + 1) (scanLineOpens l (n + 1) 0 stack)

def unmatchedOpens (text : List Char) : List (Nat × Int) :=
  unmatchedOpensGo (splitLines text) 0 []

theorem countdownLine_eq (cs : List Char) (col : Int) (k : Nat) (hk : 1 ≤ k) :
    countdownLine cs col k =
      match (openColsInLine cs col).get? (k - 1) with
      | some c => (some c, 0)
      | none => (none, k - (openColsInLine cs col).length) := by
  induction cs generalizing col k with
  | nil => simp [countdownLine, openColsInLine]
  | cons c cs ih =>
    by_cases hc : c = '['
    · subst hc
      rw [countdownLine, if_pos rfl]
      rw [openColsInLine, if_pos rfl]
      by_cases hk1 : k = 1
      · subst hk1
        simp
      · rw [if_neg (by omega)]
        rw [ih (col + 1) (k - 1) (by omega)]
        rcases hg : (openColsInLine cs (col + 1)).get? (k - 1 - 1) with _ | c2
        · rw [show (col :: openColsInLine cs (col + 1)).get? (k - 1)
                = (openColsInLine cs (col + 1)).get? (k - 1 - 1) by
              rcases hk2 : k - 1 with _ | n
              · omega
              · rfl]
          rw [hg]
          simp only [List.length_cons]
          congr 1
          omega
        · rw [show (col :: openColsInLine cs (col + 1)).get? (k - 1)
                = (openColsInLine cs (col + 1)).get? (k - 1 - 1) by
              rcases hk2 : k - 1 with _ | n
              · omega
              · rfl]
          rw [hg]
    · rw [countdownLine, if_neg hc]
      rw [openColsInLine, if_neg hc]
      exact ih (col + 1) k hk

theorem findUnclosedInLines_eq (lines : List (List Char)) (n : Nat) (k : Nat) (hk : 1 ≤ k) :
    findUnclosedInLines lines n k = (openPositions lines n).get? (k - 1) := by
  induction lines generalizing n k with
  | nil => simp [findUnclosedInLines, openPositions]
  | cons l ls ih =>
    rw [findUnclosedInLines, openPositions]
    rw [countdownLine_eq l 0 k hk]
    rcases hg : (openColsInLine l 0).get? (k - 1) with _ | c
    · dsimp only
      have hlen : (openColsInLine l 0).length ≤ k - 1 := by
        by_contra hlt
        rw [List.get?_eq_get (by omega)] at hg
        cases hg
      rw [ih (n + 1) (k - (openColsInLine l 0).length) (by omega)]
      rw [List.get?_append_right (by simp; omega)]
      simp only [List.length_map]
      congr 1
      omega
    · dsimp only
      have hlt : k - 1 < (openColsInLine l 0).length := by
        by_contra hge
        rw [List.get?_eq_none.mpr (by omega)] at hg
        cases hg
      rw [List.get?_append (by simpa using hlt)]
      rw [List.get?_map, hg]
      rfl

theorem openColsInLine_length (cs : List Char) (col : Int) :
    (openColsInLine cs col).length = cs.count '[' := by
  induction cs generalizing col with
  | nil => rfl
  | cons c cs ih =>
    by_cases hc : c = '['
    · subst hc
      rw [openColsInLine, if_pos rfl]
      simp [List.count_cons, ih]
    · rw [openColsInLine, if_neg hc]
      rw [List.count_cons, if_neg (by simpa using hc)]
      simpa using ih (col + 1)

theorem openPositions_length (lines : List (List Char)) (n : Nat) :
    (openPositions lines n).length = (lines.map (fun l => l.count '[')).sum := by
  induction lines generalizing n with
  | nil => rfl
  | cons l ls ih =>
    rw [openPositions]
    simp [openColsInLine_length, ih]

theorem reduceLast_stack (a : Analyser) (code : Code) :
    (reduceLastOperator a code).1.bracketIndexStack = a.bracketIndexStack := by
  rw [reduceLastOperator]
  rcases (updLastAux (fun n => n - 1) code.instrs).getLast? with _ | lastI
  · rfl
  · dsimp only
    split_ifs <;> rfl

theorem processSimple_stack (a : Analyser) (code : Code) (op : Operator) :
    (processSimpleOperator a code op).1.bracketIndexStack = a.bracketIndexStack := by
  rw [processSimpleOperator]
  split_ifs with h1 h2
  · rfl
  · exact reduceLast_stack a code
  · rfl

theorem analyseChar_stack_le {a : Analyser} {code : Code} {c : Char}
    {a1 : Analyser} {c1 : Code} (h : analyseChar a code c = .ok (a1, c1)) :
    a1.bracketIndexStack.length ≤
      a.bracketIndexStack.length + (if c = '[' then 1 else 0) := by
  have hlb : (toOperator c = .opLeftBracket) ↔ c = '[' := by
    unfold toOperator
    split_ifs <;> simp_all <;> decide
  rcases hc : toOperator c
  case opLeftBracket =>
    rw [if_pos (hlb.mp hc)]
    simp only [analyseChar, hc, Except.ok.injEq, Prod.mk.injEq] at h
    obtain ⟨rfl, -⟩ := h
    simp
  case opAdd | opSub | opMoveLeft | opMoveRight =>
    rw [if_neg (fun he => by rw [hlb.mpr he] at hc; cases hc)]
    simp only [analyseChar, hc, Except.ok.injEq] at h
    have hs := congrArg (fun p => p.1.bracketIndexStack) h
    simp only [processSimple_stack] at hs
    rw [← hs]
    omega
  case opInput | opOutput =>
    rw [if_neg (fun he => by rw [hlb.mpr he] at hc; cases hc)]
    simp only [analyseChar, hc, Except.ok.injEq, Prod.mk.injEq] at h
    obtain ⟨rfl, -⟩ := h
    simp
  case opRightBracket =>
    rw [if_neg (fun he => by rw [hlb.mpr he] at hc; cases hc)]
    rcases hstk : a.bracketIndexStack with _ | ⟨i, rest⟩ <;>
      simp only [analyseChar, hc, setJumpIndex, hstk, Except.bind, Except.ok.injEq,
        Prod.mk.injEq] at h
    · cases h
    · obtain ⟨rfl, -⟩ := h
      simp
  case invalid =>
    rw [if_neg (fun he => by rw [hlb.mpr he] at hc; cases hc)]
    simp only [analyseChar, hc, Except.ok.injEq, Prod.mk.injEq] at h
    obtain ⟨rfl, -⟩ := h
    omega

theorem analyseChars_stack_le {a : Analyser} {code : Code} {cs : List Char}
    {a1 : Analyser} {c1 : Code} (h : analyseChars a code cs = .ok (a1, c1)) :
    a1.bracketIndexStack.length ≤ a.bracketIndexStack.length + cs.count '[' := by
  induction cs generalizing a code with
  | nil =>
    simp only [analyseChars, Except.ok.injEq, Prod.mk.injEq] at h
    obtain ⟨rfl, -⟩ := h
    omega
  | cons c cs ih =>
    rcases hch : analyseChar { a with columnIndex := a.columnIndex + 1 } code c with e | ⟨a2, c2⟩
    · rw [analyseChars_cons_err hch cs] at h
      exact Except.noConfusion h
    · rw [analyseChars_cons_ok hch cs] at h
      have h0 := analyseChar_stack_le hch
      have h1 : a2.bracketIndexStack.length ≤
          a.bracketIndexStack.length + (if c = '[' then 1 else 0) := h0
      have h2 := ih h
      rw [List.count_cons] at *
      by_cases hce : c = '['
      · rw [if_pos hce] at h1
        rw [if_pos (by simpa using hce)]
        omega
      · rw [if_neg hce] at h1
        rw [if_neg (by simpa using hce)]
        omega

theorem analyseLines_stack_le {a : Analyser} {code : Code} {lines : List (List Char)}
    {a1 : Analyser} {c1 : Code} (h : analyseLines a code lines = .ok (a1, c1)) :
    a1.bracketIndexStack.length ≤
      a.bracketIndexStack.length + (lines.map (fun l => l.count '[')).sum := by
  induction lines generalizing a code with
  | nil =>
    simp only [analyseLines, Except.ok.injEq, Prod.mk.injEq] at h
    obtain ⟨rfl, -⟩ := h
    omega
  | cons l ls ih =>
    simp only [analyseLines] at h
    rcases hch : analyseChars (lineInit a l)
        (if a.debugFlag then
          { code with lineBegins := code.lineBegins ++ [(code.instrs.length : Int)] }
         else code) l with e | ⟨a2, c2⟩ <;> rw [hch] at h
    · exact Except.noConfusion h
    · have h1 := analyseChars_stack_le hch
      have h2 : a1.bracketIndexStack.length ≤
          a2.bracketIndexStack.length + (ls.map (fun l => l.count '[')).sum := ih h
      simp only [lineInit] at h1
      simp only [List.map_cons, List.sum_cons]
      omega

/-- `Analyse` after a successful line scan with a non-empty bracket stack fails
with the position reported by the rescan. -/
theorem analyse_bracket_err {text : List Char} {d : Bool} {a1 : Analyser} {c1 : Code}
    {line : Nat} {col : Int} {lineText : List Char}
    (hne : ¬text.length = 0)
    (hlines : analyseLines (initialAnalyser d) (Code.new d) (splitLines text) = .ok (a1, c1))
    (hstk : ¬a1.bracketIndexStack = [])
    (hfind : findUnclosedInLines (splitLines text) 0 a1.bracketIndexStack.length
      = some (line, col, lineText)) :
    analyse text d = .error (.bracketNotClose line col lineText) := by
  unfold analyse
  rw [if_neg hne, hlines]
  simp only [checkBracketMatch, if_neg hstk, hfind]

/-- C6: if the line scan succeeds but leaves `k > 0` entries on the bracket
stack, analysis fails with `bracketNotClose` at the position of the `k`-th
open bracket of the source in source order (which exists); in particular
analysing `[+` fails at line 1, column 0. -/
theorem claim_C6 :
    (∀ (text : List Char) (d : Bool) (a1 : Analyser) (c1 : Code) (k : Nat),
        analyseLines (initialAnalyser d) (Code.new d) (splitLines text) = .ok (a1, c1) →
        a1.bracketIndexStack.length = k →
        0 < k →
        ∃ (line : Nat) (col : Int) (lineText : List Char),
          (openPositions (splitLines text) 0).get? (k - 1) = some (line, col, lineText) ∧
          analyse text d = .error (.bracketNotClose line col lineText))
  ∧ analyse ['[', '+'] false = .error (.bracketNotClose 1 0 ['[', '+']) := by
  constructor
  · intro text d a1 c1 k h hk hpos
    have htext : ¬text.length = 0 := by
      intro h0
      rw [List.length_eq_zero] at h0
      subst h0
      simp only [splitLines, analyseLines, Except.ok.injEq, Prod.mk.injEq] at h
      obtain ⟨ha, -⟩ := h
      rw [← ha] at hk
      have h0' : (0 : Nat) = k := hk
      omega
    have hbound := analyseLines_stack_le h
    have h0 : (initialAnalyser d).bracketIndexStack.length = 0 := rfl
    rw [h0, hk] at hbound
    have hlen := openPositions_length (splitLines text) 0
    have hk1 : k - 1 < (openPositions (splitLines text) 0).length := by omega
    rcases hg : (openPositions (splitLines text) 0).get? (k - 1) with _ | p
    · rw [List.get?_eq_none] at hg
      omega
    · obtain ⟨line, col, lineText⟩ := p
      refine ⟨line, col, lineText, rfl, ?_⟩
      have hstk : ¬a1.bracketIndexStack = [] := by
        intro he
        rw [he] at hk
        simp at hk
        omega
      have hfind : findUnclosedInLines (splitLines text) 0 a1.bracketIndexStack.length
          = some (line, col, lineText) := by
        rw [hk, findUnclosedInLines_eq _ _ _ (by omega)]
        exact hg
      exact analyse_bracket_err htext h hstk hfind
  · have hsplit : splitLines ['[', '+'] = [['[', '+']] :=
      splitLines_single (by decide) (by decide)
    unfold analyse checkBracketMatch
    rw [hsplit]
    rfl

/-- C6 counterexample: the source `[][` has its only unmatched open bracket at
line 1, column 2, but the analyser reports line 1, column 0 (the first open
bracket overall, matched or not): the rescan counts every `[`, not only the
unmatched ones. -/
theorem claim_C6_counterexample :
    analyse ['[', ']', '['] false = .error (.bracketNotClose 1 0 ['[', ']', '[']) ∧
    unmatchedOpens ['[', ']', '['] = [(1, 2)] ∧
    ((1, (0 : Int)) : Nat × Int) ≠ ((1, (2 : Int)) : Nat × Int) := by
  have hsplit : splitLines ['[', ']', '['] = [['[', ']', '[']] :=
    splitLines_single (by decide) (by decide)
  refine ⟨?_, ?_, by decide⟩
  · unfold analyse checkBracketMatch
    rw [hsplit]
    rfl
  · unfold unmatchedOpens
    rw [hsplit]
    rfl

/-! ### Bracket pair jump targets (C1)

`scanOps` is the spec-side formalisation of "matching brackets": a plain
stack scan over the opcode sequence that records, for every `]` and the `[`
it closes, the pair of their indices. -/

/-- State of the spec-side bracket scan: open-bracket indices (top first),
matched pairs in match order, and the next index. -/
structure ScanSt where
  stack : List Nat
  pairs : List (Nat × Nat)
  idx : Nat
deriving DecidableEq, Repr

/-- One step of the spec-side bracket scan. -/
def scanStep (s : ScanSt) (op : Operator) : ScanSt :=
  match op with
  | .opLeftBracket => ⟨s.idx :: s.stack, s.pairs, s.idx + 1⟩
  | .opRightBracket =>
    match s.stack with
    | [] => ⟨[], s.pairs, s.idx + 1⟩
    | t :: rest => ⟨rest, s.pairs ++ [(t, s.idx)], s.idx + 1⟩
  | _ => ⟨s.stack, s.pairs, s.idx + 1⟩

/-- The spec-side bracket scan of an opcode sequence. -/
def scanOps (ops : List Operator) : ScanSt := ops.foldl scanStep ⟨[], [], 0⟩

theorem scanOps_concat (ops : List Operator) (op : Operator) :
    scanOps (ops ++ [op]) = scanStep (scanOps ops) op := by
  unfold scanOps
  rw [List.foldl_append]
  rfl

theorem getD_append_lt {α : Type} (l l2 : List α) (i : Nat) (d : α) (h : i < l.length) :
    (l ++ l2).getD i d = l.getD i d := by
  rw [List.getD_eq_getElem?_getD, List.getElem?_append_left h, ← List.getD_eq_getElem?_getD]

theorem getD_concat_len {α : Type} (l : List α) (x : α) (d : α) :
    (l ++ [x]).getD l.length d = x := by
  rw [List.getD_eq_getElem?_getD, List.getElem?_append_right (le_refl _)]
  simp

theorem eq_concat_of_getLast? {α : Type} {l : List α} {x : α} (h : l.getLast? = some x) :
    ∃ l', l = l' ++ [x] := by
  cases l using List.reverseRecOn with
  | nil => cases h
  | append_singleton l' y =>
    rw [List.getLast?_concat] at h
    cases h
    exact ⟨l', rfl⟩

theorem getLast?_eq_getD {α : Type} [Inhabited α] {l : List α} {n : Nat}
    (h : l.length = n + 1) : l.getLast? = some (l.getD n default) := by
  rw [List.getLast?_eq_getElem?, h, Nat.add_sub_cancel]
  rw [List.getElem?_eq_getElem (by omega)]
  rw [List.getD_eq_getElem?_getD, List.getElem?_eq_getElem (by omega)]
  rfl

theorem setAux_length (l : List Instr) (i v : Nat) : (setAux l i v).length = l.length := by
  induction l generalizing i with
  | nil => rfl
  | cons x xs ih =>
    cases i with
    | zero => rfl
    | succ n => simp only [setAux, List.length_cons, ih]

theorem setAux_getD_ne (l : List Instr) (i j v : Nat) (d : Instr) (h : j ≠ i) :
    (setAux l i v).getD j d = l.getD j d := by
  induction l generalizing i j with
  | nil => rfl
  | cons x xs ih =>
    cases i with
    | zero =>
      cases j with
      | zero => exact absurd rfl h
      | succ m => rfl
    | succ n =>
      cases j with
      | zero => rfl
      | succ m => exact ih n m (fun he => h (by rw [he]))

theorem setAux_getD_self (l : List Instr) (i v : Nat) (d : Instr) (h : i < l.length) :
    (setAux l i v).getD i d = ⟨(l.getD i d).op, v⟩ := by
  induction l generalizing i with
  | nil => exact absurd h (by simp)
  | cons x xs ih =>
    cases i with
    | zero => rfl
    | succ n => exact ih n (by simpa using h)

theorem map_getD (l : List Instr) (i : Nat) (h : i < l.length) :
    (l.map Instr.op).getD i .invalid = (l.getD i default).op := by
  rw [List.getD_eq_getElem?_getD, List.getElem?_map, List.getElem?_eq_getElem h]
  rw [List.getD_eq_getElem?_getD, List.getElem?_eq_getElem h]
  rfl

/-- Structural invariant of the spec-side bracket scan: the index counts the
scanned opcodes, stack entries are strictly decreasing indices of `[` opcodes,
and pairs join a `[` index with a `]` index, never touching stacked indices. -/
def SInv (ops : List Operator) (s : ScanSt) : Prop :=
  s.idx = ops.length ∧
  s.stack.Pairwise (fun i j => j < i) ∧
  (∀ i ∈ s.stack, i < ops.length ∧ ops.getD i .invalid = .opLeftBracket) ∧
  (∀ p ∈ s.pairs, p.1 < ops.length ∧ p.2 < ops.length ∧
    ops.getD p.1 .invalid = .opLeftBracket ∧ ops.getD p.2 .invalid = .opRightBracket ∧
    p.1 ∉ s.stack ∧ p.2 ∉ s.stack)

theorem scanOps_inv (ops : List Operator) : SInv ops (scanOps ops) := by
  induction ops using List.reverseRecOn with
  | nil =>
    refine ⟨rfl, List.Pairwise.nil, ?_, ?_⟩
    · intro i hi
      simp only [scanOps, List.foldl_nil] at hi
      cases hi
    · intro p hp
      simp only [scanOps, List.foldl_nil] at hp
      cases hp
  | append_singleton l op ih =>
    rw [scanOps_concat]
    obtain ⟨hidx, hpw, hstk, hpairs⟩ := ih
    have hget : ∀ i, i < l.length → (l ++ [op]).getD i .invalid = l.getD i .invalid :=
      fun i hi => getD_append_lt l [op] i .invalid hi
    have hlen : (l ++ [op]).length = l.length + 1 := by simp
    rcases op
    case opLeftBracket =>
      refine ⟨by simp [scanStep, hidx], ?_, ?_, ?_⟩
      · refine List.Pairwise.cons ?_ hpw
        intro j hj
        have := (hstk j hj).1
        omega
      · intro i hi
        rcases List.mem_cons.mp hi with rfl | hi2
        · rw [hidx] at *
          exact ⟨by omega, getD_concat_len l .opLeftBracket .invalid⟩
        · obtain ⟨hb, hg⟩ := hstk i hi2
          exact ⟨by omega, by rw [hget i hb]; exact hg⟩
      · intro p hp
        obtain ⟨h1, h2, hLB, hRB, hn1, hn2⟩ := hpairs p hp
        refine ⟨by omega, by omega, by rw [hget p.1 h1]; exact hLB,
          by rw [hget p.2 h2]; exact hRB, ?_, ?_⟩
        · intro hmem
          rcases List.mem_cons.mp hmem with he | hmem2
          · rw [hidx] at he; omega
          · exact hn1 hmem2
        · intro hmem
          rcases List.mem_cons.mp hmem with he | hmem2
          · rw [hidx] at he; omega
          · exact hn2 hmem2
    case opRightBracket =>
      rcases hs : (scanOps l).stack with _ | ⟨t, rest⟩
      · have hstep : scanStep (scanOps l) .opRightBracket
            = ⟨[], (scanOps l).pairs, (scanOps l).idx + 1⟩ := by
          simp only [scanStep, hs]
        rw [hstep]
        rw [hs] at hpw hstk
        refine ⟨by simp [hidx], List.Pairwise.nil, ?_, ?_⟩
        · intro i hi
          cases hi
        · intro p hp
          obtain ⟨h1, h2, hLB, hRB, -, -⟩ := hpairs p hp
          exact ⟨by omega, by omega, by rw [hget p.1 h1]; exact hLB,
            by rw [hget p.2 h2]; exact hRB, by simp, by simp⟩
      · have hstep : scanStep (scanOps l) .opRightBracket
            = ⟨rest, (scanOps l).pairs ++ [(t, (scanOps l).idx)], (scanOps l).idx + 1⟩ := by
          simp only [scanStep, hs]
        rw [hstep]
        rw [hs] at hpw hstk
        have hpw2 := List.pairwise_cons.mp hpw
        refine ⟨by simp [hidx], hpw2.2, ?_, ?_⟩
        · intro i hi
          obtain ⟨hb, hg⟩ := hstk i (List.mem_cons_of_mem t hi)
          exact ⟨by omega, by rw [hget i hb]; exact hg⟩
        · intro p hp
          rcases List.mem_append.mp hp with hp2 | hp2
          · obtain ⟨h1, h2, hLB, hRB, hn1, hn2⟩ := hpairs p hp2
            refine ⟨by omega, by omega, by rw [hget p.1 h1]; exact hLB,
              by rw [hget p.2 h2]; exact hRB, ?_, ?_⟩
            · intro hmem
              exact hn1 (by rw [hs]; exact List.mem_cons_of_mem t hmem)
            · intro hmem
              exact hn2 (by rw [hs]; exact List.mem_cons_of_mem t hmem)
          · rw [List.mem_singleton] at hp2
            subst hp2
            obtain ⟨ht, hgt⟩ := hstk t (List.mem_cons_self t rest)
            refine ⟨by omega, by rw [hidx]; omega, by rw [hget t ht]; exact hgt,
              by rw [hidx]; exact getD_concat_len l .opRightBracket .invalid, ?_, ?_⟩
            · intro hmem
              have := hpw2.1 t hmem
              omega
            · intro hmem
              rw [hidx] at hmem
              have := (hstk (l.length) (List.mem_cons_of_mem t hmem)).1
              omega
    all_goals
      refine ⟨by simp [scanStep, hidx], hpw, ?_, ?_⟩
      · intro i hi
        obtain ⟨hb, hg⟩ := hstk i hi
        exact ⟨by omega, by rw [hget i hb]; exact hg⟩
      · intro p hp
        obtain ⟨h1, h2, hLB, hRB, hn1, hn2⟩ := hpairs p hp
        exact ⟨by omega, by omega, by rw [hget p.1 h1]; exact hLB,
          by rw [hget p.2 h2]; exact hRB, hn1, hn2⟩

/-- The analyser/code invariant for C1: the scan stack of the emitted opcodes
matches the analyser's bracket stack, every matched pair already has its two
jump targets written, and `lastOperator` reflects the last emitted opcode. -/
def AInvL (a : Analyser) (l : List Instr) : Prop :=
  (scanOps (l.map Instr.op)).stack = a.bracketIndexStack ∧
  (∀ p ∈ (scanOps (l.map Instr.op)).pairs,
    (l.getD p.1 default).aux = p.2 + 1 ∧
    (l.getD p.2 default).aux = p.1 + 1) ∧
  (l = [] → a.lastOperator = .invalid) ∧
  (∀ x, l.getLast? = some x → x.op = a.lastOperator)

def AInv (a : Analyser) (code : Code) : Prop := AInvL a code.instrs

theorem pairs_aux_concat {l : List Instr} (x : Instr)
    (hpairs : ∀ p ∈ (scanOps (l.map Instr.op)).pairs,
      (l.getD p.1 default).aux = p.2 + 1 ∧ (l.getD p.2 default).aux = p.1 + 1) :
    ∀ p ∈ (scanOps (l.map Instr.op)).pairs,
      ((l ++ [x]).getD p.1 default).aux = p.2 + 1 ∧
      ((l ++ [x]).getD p.2 default).aux = p.1 + 1 := by
  intro p hp
  obtain ⟨-, -, -, hpb⟩ := scanOps_inv (l.map Instr.op)
  obtain ⟨h1, h2, -, -, -, -⟩ := hpb p hp
  rw [List.length_map] at h1 h2
  rw [getD_append_lt _ _ _ _ h1, getD_append_lt _ _ _ _ h2]
  exact hpairs p hp

theorem AInv_push {a : Analyser} {code : Code} (op : Operator)
    (hstep : ∀ s : ScanSt, scanStep s op = ⟨s.stack, s.pairs, s.idx + 1⟩)
    (hinv : AInv a code) :
    AInv { a with lastOperator := op, lineIsEmpty := false } (pushOperator code op) := by
  obtain ⟨hstk, hpairs, -, -⟩ := hinv
  have hmap : (pushOperator code op).instrs.map Instr.op
      = code.instrs.map Instr.op ++ [op] := by
    simp [pushOperator]
  refine ⟨?_, ?_, ?_, ?_⟩
  · rw [hmap, scanOps_concat, hstep]
    exact hstk
  · rw [hmap, scanOps_concat, hstep]
    exact pairs_aux_concat ⟨op, 1⟩ hpairs
  · intro he
    exact absurd (congrArg List.length he) (by simp [pushOperator])
  · intro x hx
    rw [show (pushOperator code op).instrs = code.instrs ++ [⟨op, 1⟩] from rfl,
        List.getLast?_concat] at hx
    cases hx
    rfl

theorem AInv_LB {a : Analyser} {code : Code} (hinv : AInv a code) :
    AInv { a with bracketIndexStack := code.instrs.length :: a.bracketIndexStack,
                  lastOperator := .opLeftBracket, lineIsEmpty := false }
      (pushOperator code .opLeftBracket) := by
  obtain ⟨hstk, hpairs, -, -⟩ := hinv
  have hmap : (pushOperator code .opLeftBracket).instrs.map Instr.op
      = code.instrs.map Instr.op ++ [.opLeftBracket] := by
    simp [pushOperator]
  have hidx : (scanOps (code.instrs.map Instr.op)).idx = code.instrs.length := by
    have h := (scanOps_inv (code.instrs.map Instr.op)).1
    rw [List.length_map] at h
    exact h
  refine ⟨?_, ?_, ?_, ?_⟩
  · rw [hmap, scanOps_concat]
    show (scanOps (code.instrs.map Instr.op)).idx :: (scanOps (code.instrs.map Instr.op)).stack
        = _
    rw [hidx, hstk]
  · rw [hmap, scanOps_concat]
    exact pairs_aux_concat ⟨.opLeftBracket, 1⟩ hpairs
  · intro he
    exact absurd (congrArg List.length he) (by simp [pushOperator])
  · intro x hx
    rw [show (pushOperator code .opLeftBracket).instrs
          = code.instrs ++ [⟨.opLeftBracket, 1⟩] from rfl,
        List.getLast?_concat] at hx
    cases hx
    rfl

theorem AInv_RB (a : Analyser) (code : Code) (t : Nat) (rest : List Nat)
    (hstack : a.bracketIndexStack = t :: rest) (hinv : AInv a code) :
    AInv { a with bracketIndexStack := rest, lastOperator := .opRightBracket,
                  lineIsEmpty := false }
      { code with instrs :=
          (setAux (setAux (code.instrs ++ [⟨.opRightBracket, 1⟩]) code.instrs.length (t + 1))
            t (code.instrs.length + 1)) } := by
  obtain ⟨hstk, hpairs, -, -⟩ := hinv
  have hmap2 : (setAux (setAux (code.instrs ++ [⟨.opRightBracket, 1⟩])
        code.instrs.length (t + 1)) t (code.instrs.length + 1)).map Instr.op
      = code.instrs.map Instr.op ++ [.opRightBracket] := by
    rw [setAux_map_op, setAux_map_op, List.map_append]
    rfl
  obtain ⟨hidx, hpw, hstkb, hpb⟩ := scanOps_inv (code.instrs.map Instr.op)
  rw [List.length_map] at hidx
  have htmem : t ∈ (scanOps (code.instrs.map Instr.op)).stack := by
    rw [hstk, hstack]
    exact List.mem_cons_self t rest
  obtain ⟨htlt, htLB⟩ := hstkb t htmem
  rw [List.length_map] at htlt
  have hscan : (scanOps (code.instrs.map Instr.op)).stack = t :: rest := by
    rw [hstk, hstack]
  have hstep : scanStep (scanOps (code.instrs.map Instr.op)) .opRightBracket
      = ⟨rest, (scanOps (code.instrs.map Instr.op)).pairs
          ++ [(t, (scanOps (code.instrs.map Instr.op)).idx)],
         (scanOps (code.instrs.map Instr.op)).idx + 1⟩ := by
    simp only [scanStep, hscan]
  have hlenin : (setAux (code.instrs ++ [⟨(.opRightBracket : Operator), 1⟩])
      code.instrs.length (t + 1)).length = code.instrs.length + 1 := by
    rw [setAux_length]
    simp
  refine ⟨?_, ?_, ?_, ?_⟩
  · rw [hmap2, scanOps_concat, hstep]
  · rw [hmap2, scanOps_concat, hstep]
    intro p hp
    rcases List.mem_append.mp hp with hp2 | hp2
    · obtain ⟨h1, h2, -, -, hn1, hn2⟩ := hpb p hp2
      rw [List.length_map] at h1 h2
      have hne1t : p.1 ≠ t := fun he => hn1 (by rw [he]; exact htmem)
      have hne2t : p.2 ≠ t := fun he => hn2 (by rw [he]; exact htmem)
      constructor
      · rw [setAux_getD_ne _ _ _ _ _ hne1t,
            setAux_getD_ne _ _ _ _ _ (by omega : p.1 ≠ code.instrs.length),
            getD_append_lt _ _ _ _ h1]
        exact (hpairs p hp2).1
      · rw [setAux_getD_ne _ _ _ _ _ hne2t,
            setAux_getD_ne _ _ _ _ _ (by omega : p.2 ≠ code.instrs.length),
            getD_append_lt _ _ _ _ h2]
        exact (hpairs p hp2).2
    · rw [List.mem_singleton] at hp2
      subst hp2
      constructor
      · show ((setAux (setAux (code.instrs ++ [⟨.opRightBracket, 1⟩])
            code.instrs.length (t + 1)) t (code.instrs.length + 1)).getD t default).aux
          = (scanOps (code.instrs.map Instr.op)).idx + 1
        rw [setAux_getD_self _ _ _ _ (by rw [hlenin]; omega), hidx]
      · show ((setAux (setAux (code.instrs ++ [⟨.opRightBracket, 1⟩])
            code.instrs.length (t + 1)) t (code.instrs.length + 1)).getD
              (scanOps (code.instrs.map Instr.op)).idx default).aux = t + 1
        rw [hidx,
            setAux_getD_ne _ _ _ _ _ (by omega : code.instrs.length ≠ t),
            setAux_getD_self _ _ _ _ (by simp)]
  · intro he
    apply absurd (congrArg List.length he)
    rw [setAux_length, hlenin]
    simp
  · intro x hx
    rw [getLast?_eq_getD (by rw [setAux_length, hlenin])] at hx
    cases hx
    show ((setAux (setAux (code.instrs ++ [⟨.opRightBracket, 1⟩])
        code.instrs.length (t + 1)) t (code.instrs.length + 1)).getD
          code.instrs.length default).op = .opRightBracket
    rw [setAux_getD_ne _ _ _ _ _ (by omega : code.instrs.length ≠ t),
        setAux_getD_self _ _ _ _ (by simp), getD_concat_len]

theorem AInvL_updLast {a : Analyser} {l : List Instr} (f : Nat → Nat) {x : Instr}
    (hlastx : l.getLast? = some x)
    (hx1 : x.op ≠ .opLeftBracket) (hx2 : x.op ≠ .opRightBracket)
    (hinv : AInvL a l) :
    AInvL a (updLastAux f l) := by
  obtain ⟨l', rfl⟩ := eq_concat_of_getLast? hlastx
  rw [updLastAux_concat]
  obtain ⟨hstk, hpairs, -, hlast⟩ := hinv
  have hmap : (l' ++ [(⟨x.op, f x.aux⟩ : Instr)]).map Instr.op
      = (l' ++ [x]).map Instr.op := by simp
  have hqe : ((l' ++ [x]).map Instr.op) = l'.map Instr.op ++ [x.op] := by simp
  refine ⟨?_, ?_, ?_, ?_⟩
  · rw [hmap]
    exact hstk
  · rw [hmap]
    intro p hp
    obtain ⟨h1, h2, hLB, hRB, -, -⟩ := (scanOps_inv ((l' ++ [x]).map Instr.op)).2.2.2 p hp
    rw [List.length_map, List.length_append, List.length_singleton] at h1 h2
    have hgx := getD_concat_len (l'.map Instr.op) x.op .invalid
    rw [List.length_map] at hgx
    have hne1 : p.1 ≠ l'.length := by
      intro he
      rw [he, hqe, hgx] at hLB
      exact hx1 hLB
    have hne2 : p.2 ≠ l'.length := by
      intro he
      rw [he, hqe, hgx] at hRB
      exact hx2 hRB
    have hold := hpairs p hp
    rw [getD_append_lt l' [x] p.1 default (by omega),
        getD_append_lt l' [x] p.2 default (by omega)] at hold
    rw [getD_append_lt _ _ _ _ (by omega : p.1 < l'.length),
        getD_append_lt _ _ _ _ (by omega : p.2 < l'.length)]
    exact hold
  · intro he
    exact absurd (congrArg List.length he) (by simp)
  · intro y hy
    rw [List.getLast?_concat] at hy
    cases hy
    exact hlast x (by rw [List.getLast?_concat])

theorem AInvL_dropLast {a : Analyser} {l : List Instr} {x : Instr}
    (hlastx : l.getLast? = some x)
    (hx1 : x.op ≠ .opLeftBracket) (hx2 : x.op ≠ .opRightBracket)
    (hinv : AInvL a l) (lie : Bool) :
    AInvL { a with
              lineIsEmpty := lie,
              lastOperator := (match l.dropLast.getLast? with
                | none => .invalid
                | some i => i.op) } l.dropLast := by
  obtain ⟨l', rfl⟩ := eq_concat_of_getLast? hlastx
  rw [List.dropLast_concat]
  obtain ⟨hstk, hpairs, -, -⟩ := hinv
  have hqe : ((l' ++ [x]).map Instr.op) = l'.map Instr.op ++ [x.op] := by simp
  have hstep : scanStep (scanOps (l'.map Instr.op)) x.op
      = ⟨(scanOps (l'.map Instr.op)).stack, (scanOps (l'.map Instr.op)).pairs,
         (scanOps (l'.map Instr.op)).idx + 1⟩ := by
    rcases hxo : x.op
    case opLeftBracket => exact absurd hxo hx1
    case opRightBracket => exact absurd hxo hx2
    all_goals rfl
  have hscan : scanOps ((l' ++ [x]).map Instr.op)
      = ⟨(scanOps (l'.map Instr.op)).stack, (scanOps (l'.map Instr.op)).pairs,
         (scanOps (l'.map Instr.op)).idx + 1⟩ := by
    rw [hqe, scanOps_concat, hstep]
  refine ⟨?_, ?_, ?_, ?_⟩
  · show (scanOps (l'.map Instr.op)).stack = a.bracketIndexStack
    rw [← hstk, hscan]
  · intro p hp
    have hp2 : p ∈ (scanOps ((l' ++ [x]).map Instr.op)).pairs := by
      rw [hscan]
      exact hp
    obtain ⟨h1, h2, -, -, -, -⟩ := (scanOps_inv (l'.map Instr.op)).2.2.2 p hp
    rw [List.length_map] at h1 h2
    have hold := hpairs p hp2
    rw [getD_append_lt l' [x] p.1 default h1, getD_append_lt l' [x] p.2 default h2] at hold
    exact hold
  · intro he
    rw [he]
    rfl
  · intro y hy
    show y.op = (match l'.getLast? with | none => Operator.invalid | some i => i.op)
    rw [hy]

theorem eq_nil_of_getLast?_none {α : Type} {l : List α} (h : l.getLast? = none) : l = [] := by
  cases l using List.reverseRecOn with
  | nil => rfl
  | append_singleton l' y =>
    rw [List.getLast?_concat] at h
    cases h

theorem AInv_processSimple {a : Analyser} {code : Code} {op : Operator}
    (hop : op = .opAdd ∨ op = .opSub ∨ op = .opMoveLeft ∨ op = .opMoveRight)
    (hinv : AInv a code) :
    AInv (processSimpleOperator a code op).1 (processSimpleOperator a code op).2 := by
  have hop1 : op ≠ .opLeftBracket := by rcases hop with rfl | rfl | rfl | rfl <;> decide
  have hop2 : op ≠ .opRightBracket := by rcases hop with rfl | rfl | rfl | rfl <;> decide
  have hopi : op ≠ .invalid := by rcases hop with rfl | rfl | rfl | rfl <;> decide
  have hrev1 : op.reverse ≠ .opLeftBracket := by
    rcases hop with rfl | rfl | rfl | rfl <;> decide
  have hrev2 : op.reverse ≠ .opRightBracket := by
    rcases hop with rfl | rfl | rfl | rfl <;> decide
  have hrevi : op.reverse ≠ .invalid := by
    rcases hop with rfl | rfl | rfl | rfl <;> decide
  rw [processSimpleOperator]
  split_ifs with h1 h2
  · rcases hl : code.instrs.getLast? with _ | x
    · have hnl := eq_nil_of_getLast?_none hl
      have hli := hinv.2.2.1 hnl
      rw [h1.2] at hli
      exact absurd hli hopi
    · have hxop : x.op = op := by rw [hinv.2.2.2 x hl, h1.2]
      exact AInvL_updLast _ hl (by rw [hxop]; exact hop1) (by rw [hxop]; exact hop2) hinv
  · rw [reduceLastOperator]
    rcases hl : code.instrs.getLast? with _ | x
    · have hnl := eq_nil_of_getLast?_none hl
      have hli := hinv.2.2.1 hnl
      rw [h2.2] at hli
      exact absurd hli hrevi
    · obtain ⟨l', hsplit⟩ := eq_concat_of_getLast? hl
      have hxop : x.op = op.reverse := by rw [hinv.2.2.2 x hl, h2.2]
      have hl1 : (updLastAux (fun n => n - 1) code.instrs).getLast?
          = some ⟨x.op, x.aux - 1⟩ := by
        rw [hsplit, updLastAux_concat, List.getLast?_concat]
      simp only [hl1]
      have hdrop : (updLastAux (fun n => n - 1) code.instrs).dropLast
          = code.instrs.dropLast := by
        rw [hsplit, updLastAux_concat, List.dropLast_concat, List.dropLast_concat]
      split_ifs with haux hdbg
      · rw [hdrop]
        exact AInvL_dropLast hl (by rw [hxop]; exact hrev1) (by rw [hxop]; exact hrev2) hinv _
      · rw [hdrop]
        exact AInvL_dropLast hl (by rw [hxop]; exact hrev1) (by rw [hxop]; exact hrev2) hinv _
      · exact AInvL_updLast _ hl (by rw [hxop]; exact hrev1) (by rw [hxop]; exact hrev2) hinv
  · exact AInv_push op (fun s => by rcases hop with rfl | rfl | rfl | rfl <;> rfl) hinv

theorem analyseChar_AInv {a : Analyser} {code : Code} {c : Char}
    {a1 : Analyser} {c1 : Code} (h : analyseChar a code c = .ok (a1, c1))
    (hinv : AInv a code) : AInv a1 c1 := by
  rcases hc : toOperator c
  case opAdd =>
    simp only [analyseChar, hc, Except.ok.injEq] at h
    have h2 := AInv_processSimple (Or.inl rfl) hinv
    rw [h] at h2
    exact h2
  case opSub =>
    simp only [analyseChar, hc, Except.ok.injEq] at h
    have h2 := AInv_processSimple (Or.inr (Or.inl rfl)) hinv
    rw [h] at h2
    exact h2
  case opMoveLeft =>
    simp only [analyseChar, hc, Except.ok.injEq] at h
    have h2 := AInv_processSimple (Or.inr (Or.inr (Or.inl rfl))) hinv
    rw [h] at h2
    exact h2
  case opMoveRight =>
    simp only [analyseChar, hc, Except.ok.injEq] at h
    have h2 := AInv_processSimple (Or.inr (Or.inr (Or.inr rfl))) hinv
    rw [h] at h2
    exact h2
  case opInput =>
    simp only [analyseChar, hc, Except.ok.injEq, Prod.mk.injEq] at h
    obtain ⟨h1, h2⟩ := h
    rw [← h1, ← h2]
    exact AInv_push .opInput (fun s => rfl) hinv
  case opOutput =>
    simp only [analyseChar, hc, Except.ok.injEq, Prod.mk.injEq] at h
    obtain ⟨h1, h2⟩ := h
    rw [← h1, ← h2]
    exact AInv_push .opOutput (fun s => rfl) hinv
  case opLeftBracket =>
    simp only [analyseChar, hc, Except.ok.injEq, Prod.mk.injEq] at h
    obtain ⟨h1, h2⟩ := h
    rw [← h1, ← h2]
    exact AInv_LB hinv
  case opRightBracket =>
    rcases hstk : a.bracketIndexStack with _ | ⟨t, rest⟩ <;>
      simp only [analyseChar, hc, setJumpIndex, hstk] at h
    · exact Except.noConfusion h
    · injection h with hpair
      injection hpair with h1 h2
      rw [← h1, ← h2]
      have hlen : (pushOperator code .opRightBracket).instrs.length
          = code.instrs.length + 1 := by simp [pushOperator]
      rw [hlen, Nat.add_sub_cancel]
      exact AInv_RB a code t rest hstk hinv
  case invalid =>
    simp only [analyseChar, hc, Except.ok.injEq, Prod.mk.injEq] at h
    obtain ⟨h1, h2⟩ := h
    rw [← h1, ← h2]
    exact hinv

theorem analyseChars_AInv {cs : List Char} {a : Analyser} {code : Code}
    {a1 : Analyser} {c1 : Code} (h : analyseChars a code cs = .ok (a1, c1))
    (hinv : AInv a code) : AInv a1 c1 := by
  induction cs generalizing a code with
  | nil =>
    simp only [analyseChars, Except.ok.injEq, Prod.mk.injEq] at h
    obtain ⟨rfl, rfl⟩ := h
    exact hinv
  | cons c cs ih =>
    rcases hch : analyseChar { a with columnIndex := a.columnIndex + 1 } code c
        with e | ⟨a2, c2⟩
    · rw [analyseChars_cons_err hch cs] at h
      exact Except.noConfusion h
    · rw [analyseChars_cons_ok hch cs] at h
      have hmid : AInv { a with columnIndex := a.columnIndex + 1 } code := hinv
      exact ih h (analyseChar_AInv hch hmid)

theorem analyseLines_AInv {lines : List (List Char)} {a : Analyser} {code : Code}
    {a1 : Analyser} {c1 : Code} (h : analyseLines a code lines = .ok (a1, c1))
    (hinv : AInv a code) : AInv a1 c1 := by
  induction lines generalizing a code with
  | nil =>
    simp only [analyseLines, Except.ok.injEq, Prod.mk.injEq] at h
    obtain ⟨rfl, rfl⟩ := h
    exact hinv
  | cons l ls ih =>
    simp only [analyseLines] at h
    rcases hch : analyseChars (lineInit a l)
        (if a.debugFlag then
          { code with lineBegins := code.lineBegins ++ [(code.instrs.length : Int)] }
         else code) l with e | ⟨a2, c2⟩ <;> rw [hch] at h
    · exact Except.noConfusion h
    · have hmid : AInv (lineInit a l)
          (if a.debugFlag then
            { code with lineBegins := code.lineBegins ++ [(code.instrs.length : Int)] }
           else code) := by
        by_cases hd : a.debugFlag = true
        · rw [if_pos hd]
          exact hinv
        · rw [if_neg hd]
          exact hinv
      exact ih h (analyseChars_AInv hch hmid)

/-- C1: in every successfully analysed program, every `[`/`]` pair matched by
the spec-side stack scan of the opcode sequence stores jump target `j + 1` at
the `[` (index `i`) and `i + 1` at the `]` (index `j`), each one past its
partner; the scan also ends with an empty stack, so every bracket is matched. -/
theorem claim_C1 (text : List Char) (d : Bool) (c : Code)
    (h : analyse text d = .ok c) :
    (scanOps (c.instrs.map Instr.op)).stack = [] ∧
    ∀ p ∈ (scanOps (c.instrs.map Instr.op)).pairs,
      (c.instrs.getD p.1 default).op = .opLeftBracket ∧
      (c.instrs.getD p.2 default).op = .opRightBracket ∧
      (c.instrs.getD p.1 default).aux = p.2 + 1 ∧
      (c.instrs.getD p.2 default).aux = p.1 + 1 := by
  unfold analyse at h
  by_cases hne : text.length = 0
  · rw [if_pos hne] at h
    exact Except.noConfusion h
  · rw [if_neg hne] at h
    rcases hlines : analyseLines (initialAnalyser d) (Code.new d) (splitLines text)
        with e | ⟨a1, c1⟩ <;> rw [hlines] at h
    · exact Except.noConfusion h
    · dsimp only at h
      rcases hcb : checkBracketMatch a1 text with _ | e <;> rw [hcb] at h <;>
        dsimp only at h
      · have hstk : a1.bracketIndexStack = [] := by
          by_contra hns
          simp only [checkBracketMatch, if_neg hns] at hcb
          rcases hf : findUnclosedInLines (splitLines text) 0 a1.bracketIndexStack.length
              with _ | ⟨⟨l3, c3, t3⟩⟩ <;> rw [hf] at hcb <;> exact Option.noConfusion hcb
        have hinv0 : AInv (initialAnalyser d) (Code.new d) :=
          ⟨rfl, fun p hp => absurd hp (List.not_mem_nil p), fun _ => rfl,
           fun x hx => Option.noConfusion hx⟩
        obtain ⟨hscanstk, hpairs, -, -⟩ := analyseLines_AInv hlines hinv0
        have hmain : c.instrs = c1.instrs →
            (scanOps (c.instrs.map Instr.op)).stack = [] ∧
            ∀ p ∈ (scanOps (c.instrs.map Instr.op)).pairs,
              (c.instrs.getD p.1 default).op = .opLeftBracket ∧
              (c.instrs.getD p.2 default).op = .opRightBracket ∧
              (c.instrs.getD p.1 default).aux = p.2 + 1 ∧
              (c.instrs.getD p.2 default).aux = p.1 + 1 := by
          intro hci
          rw [hci]
          constructor
          · rw [hscanstk]
            exact hstk
          · intro p hp
            obtain ⟨h1, h2, hLB, hRB, -, -⟩ :=
              (scanOps_inv (c1.instrs.map Instr.op)).2.2.2 p hp
            rw [List.length_map] at h1 h2
            exact ⟨by rw [← map_getD _ _ h1]; exact hLB,
              by rw [← map_getD _ _ h2]; exact hRB,
              (hpairs p hp).1, (hpairs p hp).2⟩
        split_ifs at h <;>
          first
          | exact Except.noConfusion h
          | (injection h with hc
             exact hmain (by rw [← hc]; try rfl))
      · exact Except.noConfusion h

/-- C1 witness: for the analysed program of `[+]` the scan matches the pair
(0, 2); the `[` stores 3 and the `]` stores 1. -/
theorem claim_C1_witness :
    (scanOps (([⟨.opLeftBracket, 3⟩, ⟨.opAdd, 1⟩, ⟨.opRightBracket, 1⟩]
        : List Instr).map Instr.op)).stack = [] ∧
    (([⟨.opLeftBracket, 3⟩, ⟨.opAdd, 1⟩, ⟨.opRightBracket, 1⟩]
        : List Instr).getD 0 default).aux = 2 + 1 ∧
    (([⟨.opLeftBracket, 3⟩, ⟨.opAdd, 1⟩, ⟨.opRightBracket, 1⟩]
        : List Instr).getD 2 default).aux = 0 + 1 :=
  ⟨(claim_C1 ['[', '+', ']'] false
      ⟨[⟨.opLeftBracket, 3⟩, ⟨.opAdd, 1⟩, ⟨.opRightBracket, 1⟩], 3, 1, []⟩
      (by unfold analyse checkBracketMatch
          rw [splitLines_single (by decide) (by decide)]
          rfl)).1,
   ((claim_C1 ['[', '+', ']'] false
      ⟨[⟨.opLeftBracket, 3⟩, ⟨.opAdd, 1⟩, ⟨.opRightBracket, 1⟩], 3, 1, []⟩
      (by unfold analyse checkBracketMatch
          rw [splitLines_single (by decide) (by decide)]
          rfl)).2 (0, 2) (by decide)).2.2.1,
   ((claim_C1 ['[', '+', ']'] false
      ⟨[⟨.opLeftBracket, 3⟩, ⟨.opAdd, 1⟩, ⟨.opRightBracket, 1⟩], 3, 1, []⟩
      (by unfold analyse checkBracketMatch
          rw [splitLines_single (by decide) (by decide)]
          rfl)).2 (0, 2) (by decide)).2.2.2⟩

/-- C6 witness: the general statement applied to the source `[+`. -/
theorem claim_C6_witness :
    ∃ (line : Nat) (col : Int) (lineText : List Char),
      (openPositions (splitLines ['[', '+']) 0).get? (1 - 1) = some (line, col, lineText) ∧
      analyse ['[', '+'] false = .error (.bracketNotClose line col lineText) :=
  claim_C6.1 ['[', '+'] false
    ⟨false, 1, 1, ['[', '+'], false, .opAdd, [0]⟩
    ⟨[⟨.opLeftBracket, 1⟩, ⟨.opAdd, 1⟩], 0, 0, []⟩ 1
    (by rw [splitLines_single (by decide) (by decide)]; rfl)
    rfl (by decide)

end Bfck
